import Mathlib

/-!
# Verification of the `short_lines` text reformatter (final iteration, `short_lines3.1.py`)

This file gives a shallow embedding, over `List Char`, of the text-processing
pipeline of the repository's final iteration:

* whitespace normalization (`" ".join(content.split())`),
* sentence splitting (`re.split(r'(?<=[.!?]) +', text)` followed by strip/filter),
* paragraph grouping (`range(0, len, k)` slicing joined by single spaces),
* word wrapping (the CPython `textwrap.fill` algorithm with its default
  configuration: `expand_tabs=True`, `replace_whitespace=True`,
  `break_long_words=True`, `drop_whitespace=True`, `break_on_hyphens=True`,
  `max_lines=None`, empty indents, `tabsize=8`),
* the surrounding argument validation, file reading and main sequencing,
  with the file system abstracted as oracles.

Whitespace is modelled as the six US-ASCII whitespace characters that
`textwrap` itself hardcodes (`'\t\n\x0b\x0c\r '`); all concrete inputs under
study are ASCII.  Character classes of the `textwrap` word-separation regex
(`\w`, letters, word punctuation) are modelled in their ASCII meaning.
Recursions that are not structural carry an explicit fuel argument; top-level
wrappers instantiate the fuel with a bound that is proved (or, for junk
parameter values that the program rejects up front, documented) sufficient.
-/

/-- The six ASCII whitespace characters recognized by CPython `textwrap`
(and by `str.split` / `str.strip` on ASCII text). -/
def isPyWs (c : Char) : Bool :=
  c = ' ' || c = '\t' || c = '\n' || c = '\x0b' || c = '\x0c' || c = '\r'

/-- Sentence-terminal punctuation: `.`, `!`, `?` (the class `[.!?]` of the
sentence-splitting regex). -/
def isTerminal (c : Char) : Bool :=
  c = '.' || c = '!' || c = '?'

/-- `str.strip()` on ASCII text: remove leading and trailing whitespace. -/
def pyStrip (l : List Char) : List Char :=
  ((l.dropWhile isPyWs).reverse.dropWhile isPyWs).reverse

/-- `str.split()` with no arguments: split on whitespace, returning the
maximal nonempty runs of non-whitespace characters, in order. -/
def pySplitWs (s : List Char) : List (List Char) :=
  (s.splitOnP isPyWs).filter (fun w => !w.isEmpty)

/-- `sep.join(parts)`. -/
def joinSep (sep : List Char) : List (List Char) → List Char
  | [] => []
  | [x] => x
  | x :: y :: rest => x ++ sep ++ joinSep sep (y :: rest)

/-- The whitespace-normalization step of `reformat_text`
(line 149: `" ".join(content.split())`). -/
def normalizeWs (content : List Char) : List Char :=
  joinSep [' '] (pySplitWs content)

example : pySplitWs "  a b\n\tcd  ".toList = [['a'], ['b'], ['c', 'd']] := by decide

example : normalizeWs "  a b\n\tcd  ".toList = "a b cd".toList := by decide

/-- Prepend a character to the first piece of a piece list (used by the
sentence-splitting scanners).  The empty case never arises: the scanners
always produce at least one piece. -/
def consHead (c : Char) : List (List Char) → List (List Char)
  | [] => [[c]]
  | w :: ws => (c :: w) :: ws

/-- Scanner for `re.split(r'(?<=[.!?]) +', text)`.  The regex matches a
maximal run of spaces whose preceding character is `.`, `!` or `?`; the run
is removed and the text is split there.  State: `skip` is `true` while
consuming the remainder of a matched space run; `prev` is the previously
scanned character (the lookbehind).  A piece boundary is produced exactly
when, outside a run, the current character is a space and `prev` is
terminal punctuation. -/
def splitSentAux : Bool → Char → List Char → List (List Char)
  | _, _, [] => [[]]
  | true, _, c :: rest =>
      if c = ' ' then splitSentAux true ' ' rest
      else consHead c (splitSentAux false c rest)
  | false, prev, c :: rest =>
      if c = ' ' && isTerminal prev then [] :: splitSentAux true ' ' rest
      else consHead c (splitSentAux false c rest)

/-- `split_into_sentences` (lines 131-134): regex split, then strip each
piece and discard the blank ones.  The initial lookbehind is a space (no
character precedes position 0, so a leading space can never match). -/
def split_into_sentences (text : List Char) : List (List Char) :=
  ((splitSentAux false ' ' text).map pyStrip).filter (fun s => !s.isEmpty)

example :
    split_into_sentences "Hi there. This is great! Wow.".toList =
      ["Hi there.".toList, "This is great!".toList, "Wow.".toList] := by decide

example : split_into_sentences "A.\nB".toList = ["A.\nB".toList] := by decide

example : split_into_sentences "A.   B?  C".toList =
    ["A.".toList, "B?".toList, "C".toList] := by decide

/-!
## Specification reference: sentence splitting

Two reference splitters written from the specification's words ("scan the
text for the pattern: sentence-terminal punctuation mark, immediately
followed by one or more whitespace characters; split at each such boundary,
keeping the terminal punctuation attached to the preceding sentence and
discarding the separating whitespace").  They decide at the terminal
punctuation mark by looking ahead, unlike the embedding's scanner, which
decides at the separator by looking behind.  `sentSplitSpecWs` takes the
specification literally (any whitespace separates); `sentSplitSpecSp` is the
variant in which only the space character separates. -/

/-- Reference splitter, literal reading: terminal punctuation immediately
followed by one or more whitespace characters ends a sentence; the
whitespace run is discarded (`skip` state).  Pieces are then stripped and
blanks discarded. -/
def specSplitWsAux : Bool → List Char → List (List Char)
  | _, [] => [[]]
  | true, c :: rest =>
      if isPyWs c then specSplitWsAux true rest
      else if isTerminal c && (rest.head?.elim false isPyWs) then
        [c] :: specSplitWsAux true rest
      else consHead c (specSplitWsAux false rest)
  | false, c :: rest =>
      if isTerminal c && (rest.head?.elim false isPyWs) then
        [c] :: specSplitWsAux true rest
      else consHead c (specSplitWsAux false rest)

/-- The literal-specification sentence splitter (split on terminal
punctuation followed by whitespace, strip pieces, discard blanks). -/
def sentSplitSpecWs (text : List Char) : List (List Char) :=
  ((specSplitWsAux false text).map pyStrip).filter (fun s => !s.isEmpty)

/-- Reference splitter, space-only variant: terminal punctuation immediately
followed by one or more space characters ends a sentence. -/
def specSplitSpAux : Bool → List Char → List (List Char)
  | _, [] => [[]]
  | true, c :: rest =>
      if c = ' ' then specSplitSpAux true rest
      else if isTerminal c && (rest.head?.elim false (fun d => d = ' ')) then
        [c] :: specSplitSpAux true rest
      else consHead c (specSplitSpAux false rest)
  | false, c :: rest =>
      if isTerminal c && (rest.head?.elim false (fun d => d = ' ')) then
        [c] :: specSplitSpAux true rest
      else consHead c (specSplitSpAux false rest)

/-- The space-only reference sentence splitter. -/
def sentSplitSpecSp (text : List Char) : List (List Char) :=
  ((specSplitSpAux false text).map pyStrip).filter (fun s => !s.isEmpty)

example : sentSplitSpecWs "A.\nB".toList = ["A.".toList, ['B']] := by decide

example : sentSplitSpecSp "A.\nB".toList = ["A.\nB".toList] := by decide

/-!
## Paragraph grouping
-/

/-- The slicing loop of `group_sentences_into_paragraphs` (lines 139-142):
`for i in range(0, len(l), k): append(l[i:i+k])`.  Fuel-indexed; one unit of
fuel per produced slice.  With `k = 0` the Python `range` raises
`ValueError`; the pipeline model returns an error before calling this, so
the `k = 0` behaviour of this function is never consulted. -/
def chunkRangeF {α : Type} : Nat → Nat → List α → List (List α)
  | 0, _, _ => []
  | _, _, [] => []
  | fuel + 1, k, l => l.take k :: chunkRangeF fuel k (l.drop k)

/-- `group_sentences_into_paragraphs` (lines 137-143): slice the sentence
list into consecutive chunks of `k` and join each chunk with single
spaces. -/
def group_sentences_into_paragraphs (sentences : List (List Char)) (k : Nat) :
    List (List Char) :=
  (chunkRangeF (sentences.length + 1) k sentences).map (joinSep [' '])

example :
    group_sentences_into_paragraphs ["A.".toList, "B!".toList, "C?".toList] 2 =
      ["A. B!".toList, "C?".toList] := by decide

/-!
## The CPython `textwrap` algorithm (default configuration)

`reformat_text` calls `textwrap.fill(paragraph, width=line_length)`
(lines 153-155).  With the default `TextWrapper` configuration this is:
munge whitespace (expand tabs, then map every whitespace character to a
space), split into chunks with `wordsep_re` (whitespace runs, em-dashes and
hyphen-separated word fragments are chunk boundaries), then run the greedy
line-filling loop of `_wrap_chunks` with `break_long_words=True`,
`break_on_hyphens=True`, `drop_whitespace=True`, `max_lines=None` and empty
indents, and join the lines with newlines.
-/

/-- ASCII `\w`: letters, digits, underscore. -/
def isWdChar (c : Char) : Bool :=
  ('a' ≤ c && c ≤ 'z') || ('A' ≤ c && c ≤ 'Z') || ('0' ≤ c && c ≤ '9') || c = '_'

/-- ASCII `[^\d\W]` (the `letter` class of `wordsep_re`): letters and
underscore. -/
def isLtChar (c : Char) : Bool :=
  ('a' ≤ c && c ≤ 'z') || ('A' ≤ c && c ≤ 'Z') || c = '_'

/-- The `word_punct` class of `wordsep_re`: `[\w!"'&.,?]`. -/
def isWordPunct (c : Char) : Bool :=
  isWdChar c || c = '!' || c = '"' || c = '\'' || c = '&' || c = '.' || c = ',' || c = '?'

/-- `str.expandtabs(8)`: replace each tab by `8 - column % 8` spaces, where
the column counter is advanced by one per character and reset to zero after
newline and carriage return. -/
def expandTabsAux : Nat → List Char → List Char
  | _, [] => []
  | col, c :: rest =>
      if c = '\t' then
        List.replicate (8 - col % 8) ' ' ++ expandTabsAux (col + (8 - col % 8)) rest
      else if c = '\n' || c = '\r' then c :: expandTabsAux 0 rest
      else c :: expandTabsAux (col + 1) rest

/-- `TextWrapper._munge_whitespace`: expand tabs, then translate every
whitespace character to a plain space. -/
def mungeWhitespace (s : List Char) : List Char :=
  (expandTabsAux 0 s).map (fun c => if isPyWs c then ' ' else c)

/-- Length of the run of hyphens at the head of a list. -/
def hyphenRunLen (l : List Char) : Nat :=
  (l.takeWhile (fun c => c = '-')).length

/-- The pattern `letter -? letter` of `wordsep_re`, used both as the
lookahead after a breaking hyphen and (since the pattern is symmetric) as
the lookbehind `letter letter -` / `letter - letter -` read backwards from
the hyphen. -/
def ltOptHyphLt (l : List Char) : Bool :=
  match l with
  | a :: b :: r2 =>
      (isLtChar a && isLtChar b) ||
      (isLtChar a && b = '-' && r2.head?.elim false isLtChar)
  | _ => false

/-- `-{2,}(?=\w)` at the head of `rest`: a run of at least two hyphens
followed immediately by a `\w` character. -/
def emDashAhead (rest : List Char) : Bool :=
  2 ≤ hyphenRunLen rest && (rest.drop (hyphenRunLen rest)).head?.elim false isWdChar

/-- The em-dash alternative of `wordsep_re`, `(?<=word_punct)-{2,}(?=\w)`,
tried at a chunk start: if the previously scanned character (head of the
reversed prefix `rev`) is word punctuation and the text starts with an
em-dash run followed by a `\w` character, the run (its length is returned)
is a chunk of its own. -/
def emDashLen (rev rest : List Char) : Option Nat :=
  match rev with
  | [] => none
  | p :: _ =>
      if isWordPunct p && emDashAhead rest then some (hyphenRunLen rest) else none

/-- Hyphenated-word closer of the lazy word alternative: the next character
is a hyphen, the lookbehind from it is `letter letter` or `letter - letter`
(read backwards in `rev`), and the lookahead after it is
`letter -? letter`.  The hyphen is consumed into the current chunk. -/
def wordHyphClose (rev rest : List Char) : Bool :=
  match rest with
  | c :: after => c = '-' && ltOptHyphLt rev && ltOptHyphLt after
  | _ => false

/-- End-of-word closer: end of text or a whitespace character next. -/
def wordEndClose (rest : List Char) : Bool :=
  rest.head?.elim true isPyWs

/-- Em-dash closer: the last scanned character is word punctuation and an
em-dash run followed by a `\w` character comes next (it is not consumed). -/
def wordEmDashClose (rev rest : List Char) : Bool :=
  rev.head?.elim false isWordPunct && emDashAhead rest

/-- The lazy scan of the word alternative `nowhitespace+?(...)` of
`wordsep_re`: extend the chunk one (non-whitespace) character at a time
until the first position where one of the three closers applies, testing
them in the regex's order.  Returns the characters consumed after the
chunk's first character, and the remaining text. -/
def a3Scan (rev : List Char) : List Char → List Char × List Char
  | [] => ([], [])
  | c :: r =>
      if wordHyphClose rev (c :: r) then ([c], r)
      else if wordEndClose (c :: r) then ([], c :: r)
      else if wordEmDashClose rev (c :: r) then ([], c :: r)
      else
        let p := a3Scan (c :: rev) r
        (c :: p.1, p.2)

/-- `wordsep_re` tiles the munged text into chunks: maximal whitespace runs,
em-dash runs between words, and lazily-delimited word fragments.  `rev` is
the reversed already-scanned prefix (the regex lookbehinds may inspect it);
one unit of fuel is spent per chunk, so `length + 1` fuel always
suffices. -/
def wordsepAuxF : Nat → List Char → List Char → List (List Char)
  | 0, _, _ => []
  | _, _, [] => []
  | fuel + 1, rev, c :: r =>
      if isPyWs c then
        let run := (c :: r).takeWhile isPyWs
        run :: wordsepAuxF fuel (run.reverse ++ rev) ((c :: r).dropWhile isPyWs)
      else
        match emDashLen rev (c :: r) with
        | some m =>
            (c :: r).take m ::
              wordsepAuxF fuel (((c :: r).take m).reverse ++ rev) ((c :: r).drop m)
        | none =>
            let p := a3Scan (c :: rev) r
            (c :: p.1) :: wordsepAuxF fuel ((c :: p.1).reverse ++ rev) p.2

/-- `TextWrapper._split` with `break_on_hyphens=True`: the chunk list of the
text (`wordsep_re.split` with empty strings discarded; the matches of the
fully parenthesized pattern tile the whole text, so the chunks are exactly
the matches). -/
def wordsepSplit (s : List Char) : List (List Char) :=
  wordsepAuxF (s.length + 1) [] s

example :
    wordsepSplit "Hello there -- you goof-ball, use the -b option!".toList =
      ["Hello".toList, [' '], "there".toList, [' '], "--".toList, [' '],
       "you".toList, [' '], "goof-".toList, "ball,".toList, [' '],
       "use".toList, [' '], "the".toList, [' '], "-b".toList, [' '],
       "option!".toList] := by decide

example : wordsepSplit "a-b-cd".toList = ["a-b-".toList, "cd".toList] := by decide

/-- Total length of a chunk list. -/
def sumLen (chunks : List (List Char)) : Nat :=
  (chunks.map List.length).sum

/-- `str.rfind('-', 0, stop)` of `_handle_long_word`: the greatest index
`i < stop` with a hyphen, if any. -/
def pyRfindHyphen (chunk : List Char) (stop : Nat) : Option Nat :=
  ((chunk.take stop).reverse.findIdx? (fun c => c = '-')).map
    (fun j => (chunk.take stop).length - 1 - j)

/-- The prefix length `end` chosen by `_handle_long_word` with
`break_long_words=True` and `break_on_hyphens=True`: `space_left`, except
that a chunk longer than `space_left` is preferably broken just after its
last hyphen inside the first `space_left` characters, provided the hyphen is
not at position 0 and something before it is not a hyphen. -/
def breakLongEnd (chunk : List Char) (spaceLeft : Nat) : Nat :=
  if spaceLeft < chunk.length then
    match pyRfindHyphen chunk spaceLeft with
    | some h =>
        if 0 < h && (chunk.take h).any (fun c => c ≠ '-') then h + 1 else spaceLeft
    | none => spaceLeft
  else spaceLeft

/-- The inner `while chunks:` loop of `_wrap_chunks`: greedily move chunks
onto the current line while they fit.  The current line is kept in reverse
order (`clr`); returns the new reversed line, its length, and the remaining
chunks. -/
def innerFill (width : Nat) :
    Nat → List (List Char) → List (List Char) →
      List (List Char) × Nat × List (List Char)
  | curLen, clr, [] => (clr, curLen, [])
  | curLen, clr, c :: rest =>
      if curLen + c.length ≤ width then innerFill width (curLen + c.length) (c :: clr) rest
      else (clr, curLen, c :: rest)

/-- The leading-whitespace drop of `_wrap_chunks` (`drop_whitespace` and a
line already emitted): drop the first chunk when it strips to nothing.
A chunk is "all whitespace" when `chunk.strip() == ''`. -/
def dropLeadingWs (hasLines : Bool) (chunks : List (List Char)) : List (List Char) :=
  match chunks with
  | c0 :: rest0 => if (pyStrip c0).isEmpty && hasLines then rest0 else c0 :: rest0
  | [] => []

/-- The `_handle_long_word` call site: when the next chunk cannot fit on any
line (`width < len(chunk)`), split off the prefix chosen by
`_handle_long_word` onto the current line and leave the remainder as the
new head chunk. -/
def longWordAdjust (width curLen1 : Nat) (clr1 chunks2 : List (List Char)) :
    List (List Char) × List (List Char) :=
  match chunks2 with
  | c :: rest =>
      if width < c.length then
        let spaceLeft := if width < 1 then 1 else width - curLen1
        let e := breakLongEnd c spaceLeft
        (c.take e :: clr1, c.drop e :: rest)
      else (clr1, c :: rest)
  | [] => (clr1, [])

/-- The trailing-whitespace drop of `_wrap_chunks`: drop the last chunk of
the current line (head of the reversed line) when it strips to nothing. -/
def dropTrailingWs (clr : List (List Char)) : List (List Char) :=
  match clr with
  | t :: tl => if (pyStrip t).isEmpty then tl else t :: tl
  | [] => []

/-- One iteration of the outer `while chunks:` loop of `_wrap_chunks`
(with `drop_whitespace=True`, `max_lines=None`, empty indents): drop a
leading all-whitespace chunk unless no line has been produced yet, fill the
line greedily, break a chunk that is too long for a whole line, drop a
trailing all-whitespace chunk, and emit the line if anything is left.
Returns the emitted line (if any) and the remaining chunks. -/
def wrapStep (width : Nat) (hasLines : Bool) (chunks : List (List Char)) :
    Option (List Char) × List (List Char) :=
  match chunks with
  | [] => (none, [])
  | c0 :: rest0 =>
      let chunks1 := dropLeadingWs hasLines (c0 :: rest0)
      let r1 := innerFill width 0 [] chunks1
      let r2 := longWordAdjust width r1.2.1 r1.1 r1.2.2
      let clr3 := dropTrailingWs r2.1
      match clr3 with
      | [] => (none, r2.2)
      | _ => (some clr3.reverse.flatten, r2.2)

/-- The outer loop of `_wrap_chunks`, fuel-indexed.  Every iteration on a
list of nonempty chunks removes at least one character from the chunks, so
`sumLen chunks + 1` fuel always suffices (`wrapLoopF_fuel_irrel` below). -/
def wrapLoopF (width : Nat) : Nat → Bool → List (List Char) → List (List Char)
  | 0, _, _ => []
  | _, _, [] => []
  | fuel + 1, hasLines, chunks =>
      match wrapStep width hasLines chunks with
      | (some line, chunks2) => line :: wrapLoopF width fuel true chunks2
      | (none, chunks2) => wrapLoopF width fuel hasLines chunks2

/-- `textwrap.wrap(text, width)` under the default configuration (the width
validation `width <= 0 → ValueError` is modelled at the `reformat_text`
level). -/
def twWrap (text : List Char) (width : Nat) : List (List Char) :=
  let chunks := wordsepSplit (mungeWhitespace text)
  wrapLoopF width (sumLen chunks + 1) false chunks

/-- `textwrap.fill(text, width)`: wrapped lines joined by newlines. -/
def twFill (text : List Char) (width : Nat) : List Char :=
  joinSep ['\n'] (twWrap text width)

example : twWrap (List.replicate 40 'a') 10 =
    [List.replicate 10 'a', List.replicate 10 'a',
     List.replicate 10 'a', List.replicate 10 'a'] := by decide

example : twWrap "ab cdefg".toList 3 = ["ab ".toList, "cde".toList, "fg".toList] := by
  decide

example : twWrap "   abcd".toList 3 = ["   ".toList, "abc".toList, ['d']] := by decide

example : twWrap "aaaa-bbbb cc".toList 5 =
    ["aaaa-".toList, "bbbb".toList, "cc".toList] := by decide

example : twWrap "x y abcde".toList 3 = ["x y".toList, "abc".toList, "de".toList] := by
  decide

example : twFill "Hi there. This is great! Wow.".toList 10 =
    "Hi there.\nThis is\ngreat!\nWow.".toList := by decide

/-!
## The reformat pipeline and the command-line wrappers
-/

/-- The pure composition inside `reformat_text`'s `try:` block
(lines 149-157): normalize whitespace, split into sentences, group into
paragraphs, fill each paragraph, join paragraphs with a blank line. -/
def reformatPure (content : List Char) (lineLength sentencesPerParagraph : Nat) :
    List Char :=
  joinSep ['\n', '\n']
    ((group_sentences_into_paragraphs
        (split_into_sentences (normalizeWs content)) sentencesPerParagraph).map
      (fun p => twFill p lineLength))

/-- `reformat_text` (lines 146-159) with its `try/except` modelled as
`Except`: the body can raise only `ValueError`, from `range(0, n, 0)` when
`sentences_per_paragraph` is zero, or from `textwrap.fill` when
`line_length <= 0` and at least one paragraph is filled; every other
operation in the body is total.  The `except` branch turns the exception
into a nonzero-status exit, modelled as `Except.error` (negative parameter
values are not modelled: the caller only passes validated positive
integers, and the width/group arguments are taken as naturals). -/
def reformat_text (content : List Char) (lineLength sentencesPerParagraph : Nat) :
    Except (List Char) (List Char) :=
  let sentences := split_into_sentences (normalizeWs content)
  if sentencesPerParagraph = 0 then
    .error "Error reformatting text: range() arg 3 must not be zero".toList
  else
    let paragraphs := group_sentences_into_paragraphs sentences sentencesPerParagraph
    if lineLength = 0 && !paragraphs.isEmpty then
      .error "Error reformatting text: invalid width".toList
    else .ok (reformatPure content lineLength sentencesPerParagraph)

instance exceptDecEq {ε α : Type} [DecidableEq ε] [DecidableEq α] :
    DecidableEq (Except ε α)
  | .error e, .error f =>
      if h : e = f then .isTrue (by rw [h]) else .isFalse (by simp [h])
  | .error _, .ok _ => .isFalse (by simp)
  | .ok _, .error _ => .isFalse (by simp)
  | .ok a, .ok b =>
      if h : a = b then .isTrue (by rw [h]) else .isFalse (by simp [h])

example : reformat_text "Hi there. This is great! Wow.".toList 10 1 =
    .ok "Hi there.\n\nThis is\ngreat!\n\nWow.".toList := by decide

/-- The accepted extension whitelist (line 31). -/
def ACCEPTED_FILE_FORMATS : List (List Char) :=
  [".csv".toList, ".txt".toList, ".docx".toList, ".pdf".toList, ".md".toList,
   ".json".toList, ".text".toList]

/-- `str.endswith(suffix)`. -/
def pyEndsWith (s suffix : List Char) : Bool :=
  suffix.isSuffixOf s

/-- `filename.endswith(ACCEPTED_FILE_FORMATS)`: ends with one of the
accepted extensions. -/
def hasAcceptedExt (name : List Char) : Bool :=
  ACCEPTED_FILE_FORMATS.any (fun ext => pyEndsWith name ext)

/-- `int(s)` for the numeric command-line arguments: optional surrounding
whitespace, an optional sign, then at least one ASCII digit (digit-group
underscores, accepted by Python, are not modelled; no argument under study
uses them). -/
def pyParseInt (s : List Char) : Option Int :=
  let t := pyStrip s
  let core : Option (Int → Int) × List Char :=
    match t with
    | '-' :: rest => (some (fun n => -n), rest)
    | '+' :: rest => (some id, rest)
    | rest => (some id, rest)
  match core with
  | (some sign, digits) =>
      if digits ≠ [] && digits.all (fun c => '0' ≤ c && c ≤ '9') then
        some (sign (Int.ofNat (digits.foldl (fun acc c => acc * 10 + (c.toNat - 48)) 0)))
      else none
  | (none, _) => none

example : pyParseInt " 70 ".toList = some 70 := by decide

example : pyParseInt "-5".toList = some (-5) := by decide

example : pyParseInt "5x".toList = none := by decide

/-- The validated result of `validate_args`: input file, output file, and
the optional numeric arguments. -/
structure ArgsOk where
  inputFilename : List Char
  outputFilename : List Char
  lineLength : Option Int
  sentencesPerParagraph : Option Int
  deriving DecidableEq, Repr

/-- The exit message for a missing input file (line 47). -/
def fileNotFoundMsg (input_filename : List Char) : List Char :=
  "Error: Input file does not exist: ".toList ++ input_filename

/-- The exit message for an unaccepted file extension (lines 51-54). -/
def unsupportedExtensionMsg : List Char :=
  ("Error: Both input and output files must have a valid extension:\n" ++
    ".csv .txt .docx .pdf .md .json .text").toList

/-- `validate_args` (lines 37-76) as a function of the argument vector and
an `os.path.isfile` oracle.  `sys.exit(msg)` is modelled as `Except.error
msg`.  The checks run in the source's order: argument count, input-file
existence, extension whitelist, then the optional numeric arguments. -/
def validate_args (argv : List (List Char)) (isfile : List Char → Bool) :
    Except (List Char) ArgsOk :=
  if argv.length < 3 || 5 < argv.length then
    .error ("Usage: python short_lines.py <input_file> <output_file> " ++
      "[line_length] [sentences_per_paragraph]").toList
  else
    let input_filename := (argv.drop 1).headD []
    let output_filename := (argv.drop 2).headD []
    if !isfile input_filename then
      .error (fileNotFoundMsg input_filename)
    else if !(hasAcceptedExt input_filename && hasAcceptedExt output_filename) then
      .error unsupportedExtensionMsg
    else
      match
        (match argv.drop 3 with
         | [] => Except.ok (none : Option Int)
         | a :: _ =>
           match pyParseInt a with
           | none => Except.error "Error: Line length must be a valid integer.".toList
           | some n =>
             if n ≤ 0 then
               Except.error
                 "Error: Line length must be a positive integer greater than zero.".toList
             else Except.ok (some n))
      with
      | .error e => .error e
      | .ok lineLength =>
        match
          (match argv.drop 4 with
           | [] => Except.ok (none : Option Int)
           | a :: _ =>
             match pyParseInt a with
             | none =>
               Except.error "Error: Sentences per paragraph must be a valid integer.".toList
             | some n =>
               if n ≤ 0 then
                 Except.error
                   "Error: Sentences per paragraph must be greater than zero.".toList
               else Except.ok (some n))
        with
        | .error e => .error e
        | .ok spp =>
          .ok ⟨input_filename, output_filename, lineLength, spp⟩

/-- `read_input_file` (lines 117-128) as a function of the file's content
(the `open`/`read` I/O and its `IOError` path are abstracted away; the
oracle provides the content): strip the content; an empty result exits with
the empty-input message, otherwise the stripped content is returned. -/
def read_input_file (filename content : List Char) : Except (List Char) (List Char) :=
  let stripped := pyStrip content
  if stripped.isEmpty then
    .error ("Error: Input file is empty: ".toList ++ filename)
  else .ok stripped

/-- `main` (lines 174-189) as a function of the argument vector, the
`isfile` oracle, a file-content oracle, and the results of the two
interactive prompts (used only when the corresponding argument is absent;
`get_line_length` / `get_sentences_per_paragraph` loop until they can
return a positive integer, so the prompt results are modelled as naturals
for the validated-positive values).  On success it returns the pair
(output filename, written text); `write_output_file` only receives data in
that case, so an `Except.error` result means no write was attempted. -/
def mainModel (argv : List (List Char)) (isfile : List Char → Bool)
    (fileContent : List Char → List Char) (promptW promptK : Nat) :
    Except (List Char) (List Char × List Char) :=
  match validate_args argv isfile with
  | .error e => .error e
  | .ok args =>
    let w : Nat := (args.lineLength.map Int.toNat).getD promptW
    let k : Nat := (args.sentencesPerParagraph.map Int.toNat).getD promptK
    match read_input_file args.inputFilename (fileContent args.inputFilename) with
    | .error e => .error e
    | .ok content =>
      match reformat_text content w k with
      | .error e => .error e
      | .ok newText => .ok (args.outputFilename, newText)

example : reformatPure "One two three. Four five! Six seven?  Eight.".toList 7 2 =
    "One two\nthree.\nFour\nfive!\n\nSix\nseven?\nEight.".toList := by decide

example : reformatPure " Mixed\twhitespace.\nNew line here. End".toList 12 2 =
    "Mixed\nwhitespace.\nNew line\nhere.\n\nEnd".toList := by decide

example : reformatPure "hy-phen-ated words. a--b and d'Artagnan.".toList 6 3 =
    "hy-\nphen-\nated\nwords.\na--b\nand d'\nArtagn\nan.".toList := by decide

/-!
## Claims C1 and C2: long words are in fact broken

`textwrap.fill` is called with its default configuration, in which
`break_long_words=True`: a word longer than the width is broken into
width-sized pieces (preferably after a hyphen), contradicting both the
specification and the program's own module docstring ("Lines break only
between whole words").
-/

/-- C1: the claim says a single word longer than `width` is emitted alone on
its own overlong line without splitting.  On a 40-character word at width
10, the wrap step instead emits four 10-character fragments; in particular
its output is not the single overlong line the claim requires. -/
theorem c1_long_word_is_broken :
    twWrap (List.replicate 40 'a') 10 =
      [List.replicate 10 'a', List.replicate 10 'a',
       List.replicate 10 'a', List.replicate 10 'a'] ∧
    twWrap (List.replicate 40 'a') 10 ≠ [List.replicate 40 'a'] := by decide

/-- C2: the claim says the word sequence of the output equals the word
sequence of the input.  On the single 12-character word "aaaaaaaaaaaa"
(already whitespace-normalized) at width 10 and group size 1, the pipeline
splits the word across lines: the output's word sequence has two words. -/
theorem c2_word_sequence_not_preserved :
    pySplitWs (reformatPure (List.replicate 12 'a') 10 1) =
      [List.replicate 10 'a', List.replicate 2 'a'] ∧
    pySplitWs (normalizeWs (List.replicate 12 'a')) = [List.replicate 12 'a'] ∧
    pySplitWs (reformatPure (List.replicate 12 'a') 10 1) ≠
      pySplitWs (normalizeWs (List.replicate 12 'a')) := by decide

/-- C3 counterexample: the sentence splitter does not split at terminal
punctuation followed by a newline; only the space character (the regex
atom a literal `' '`) separates.  On `"A.\nB"` the splitter returns the
whole text as one sentence while the claim's split-on-whitespace reading
returns two. -/
theorem c3_counterexample_newline_not_split :
    split_into_sentences "A.\nB".toList = ["A.\nB".toList] ∧
    sentSplitSpecWs "A.\nB".toList = ["A.".toList, ['B']] ∧
    split_into_sentences "A.\nB".toList ≠ sentSplitSpecWs "A.\nB".toList := by decide

/-!
## Claim C9: purity of the pipeline; the defensive branch is unreachable
-/

/-- C9: with validated positive `width` and `groupSize`, `reformat_text`
never reaches its `except` branch and equals the pure composition of the
four steps: the two `ValueError` sources of the body (`range` with step
zero, `textwrap.fill` with non-positive width) are excluded by the
hypotheses, and every other operation in the body is total. -/
theorem c9_reformat_is_pure (content : List Char) (w k : Nat)
    (hw : 1 ≤ w) (hk : 1 ≤ k) :
    reformat_text content w k = Except.ok (reformatPure content w k) := by
  unfold reformat_text
  have hk0 : ¬ k = 0 := by omega
  have hw0 : ¬ w = 0 := by omega
  simp [hk0, hw0]

/-- Witness for C9 at a concrete input. -/
theorem c9_reformat_is_pure_witness :
    1 ≤ 10 ∧ 1 ≤ 2 ∧
      reformat_text "Hi there. This is great! Wow.".toList 10 2 =
        Except.ok (reformatPure "Hi there. This is great! Wow.".toList 10 2) :=
  ⟨by decide, by decide,
    c9_reformat_is_pure "Hi there. This is great! Wow.".toList 10 2
      (by decide) (by decide)⟩

/-!
## Claim C5: the grouping step partitions the sentence list
-/

theorem chunkRangeF_nil {α : Type} (fuel k : Nat) :
    chunkRangeF fuel k ([] : List α) = [] := by
  cases fuel <;> rfl

theorem chunkRangeF_cons {α : Type} (n k : Nat) (x : α) (xs : List α) :
    chunkRangeF (n + 1) k (x :: xs) =
      (x :: xs).take k :: chunkRangeF n k ((x :: xs).drop k) := rfl

theorem chunkRangeF_ne_nil {α : Type} (n k : Nat) (l : List α) (hl : l ≠ []) :
    chunkRangeF (n + 1) k l ≠ [] := by
  match l with
  | [] => exact absurd rfl hl
  | x :: xs => rw [chunkRangeF_cons]; exact List.cons_ne_nil _ _

theorem chunkRangeF_flatten {α : Type} :
    ∀ (fuel k : Nat) (l : List α), 1 ≤ k → l.length < fuel →
      (chunkRangeF fuel k l).flatten = l := by
  intro fuel
  induction fuel with
  | zero => intro k l _ hl; exact absurd hl (Nat.not_lt_zero _)
  | succ n ih =>
    intro k l hk hl
    match l with
    | [] => rw [chunkRangeF_nil]; rfl
    | x :: xs =>
      rw [chunkRangeF_cons, List.flatten_cons, ih k _ hk ?_, List.take_append_drop]
      have hd : ((x :: xs).drop k).length = (x :: xs).length - k := List.length_drop ..
      simp only [List.length_cons] at hl hd ⊢
      omega

theorem chunkRangeF_mem_len {α : Type} :
    ∀ (fuel k : Nat) (l : List α), 1 ≤ k → l.length < fuel →
      ∀ c ∈ chunkRangeF fuel k l, 1 ≤ c.length ∧ c.length ≤ k := by
  intro fuel
  induction fuel with
  | zero => intro k l _ hl; exact absurd hl (Nat.not_lt_zero _)
  | succ n ih =>
    intro k l hk hl c hc
    match l with
    | [] => rw [chunkRangeF_nil] at hc; exact absurd hc (List.not_mem_nil c)
    | x :: xs =>
      rw [chunkRangeF_cons] at hc
      rcases List.mem_cons.mp hc with h | h
      · subst h
        rw [List.length_take]
        constructor
        · have : 1 ≤ (x :: xs).length := by simp
          omega
        · omega
      · refine ih k _ hk ?_ c h
        have hd : ((x :: xs).drop k).length = (x :: xs).length - k := List.length_drop ..
        simp only [List.length_cons] at hl hd ⊢
        omega

theorem chunkRangeF_dropLast_len {α : Type} :
    ∀ (fuel k : Nat) (l : List α), 1 ≤ k → l.length < fuel →
      ∀ c ∈ (chunkRangeF fuel k l).dropLast, c.length = k := by
  intro fuel
  induction fuel with
  | zero => intro k l _ hl; exact absurd hl (Nat.not_lt_zero _)
  | succ n ih =>
    intro k l hk hl c hc
    match l with
    | [] => rw [chunkRangeF_nil] at hc; exact absurd hc (List.not_mem_nil c)
    | x :: xs =>
      rw [chunkRangeF_cons] at hc
      match hrec : chunkRangeF n k ((x :: xs).drop k) with
      | [] => rw [hrec] at hc; exact absurd hc (List.not_mem_nil c)
      | b :: bs =>
        rw [hrec] at hc
        have hdrop : (x :: xs).drop k ≠ [] := by
          intro hnil
          rw [hnil, chunkRangeF_nil] at hrec
          exact List.cons_ne_nil b bs hrec.symm
        have hlen : k < (x :: xs).length := by
          have hd : ((x :: xs).drop k).length = (x :: xs).length - k := List.length_drop ..
          have : 0 < ((x :: xs).drop k).length := List.length_pos.mpr hdrop
          omega
        have hc' : c ∈ (x :: xs).take k :: (b :: bs).dropLast := by
          simpa [List.dropLast] using hc
        rcases List.mem_cons.mp hc' with h | h
        · subst h
          rw [List.length_take]
          omega
        · rw [← hrec] at h
          refine ih k _ hk ?_ c h
          have hd : ((x :: xs).drop k).length = (x :: xs).length - k := List.length_drop ..
          simp only [List.length_cons] at hl hd ⊢
          omega

/-- C5: for a nonempty sentence list and group size `k ≥ 1`, the slices
computed by the grouping loop concatenate back to the sentence list (no
sentence dropped, duplicated or reordered), there is at least one slice, no
slice is empty, every slice except the last has exactly `k` sentences, every
slice has between 1 and `k` sentences, and each produced paragraph is its
slice's sentences joined by single spaces. -/
theorem c5_grouping_partitions (sents : List (List Char)) (k : Nat)
    (hk : 1 ≤ k) (hne : sents ≠ []) :
    (chunkRangeF (sents.length + 1) k sents).flatten = sents ∧
    chunkRangeF (sents.length + 1) k sents ≠ [] ∧
    (∀ c ∈ (chunkRangeF (sents.length + 1) k sents).dropLast, c.length = k) ∧
    (∀ c ∈ chunkRangeF (sents.length + 1) k sents, 1 ≤ c.length ∧ c.length ≤ k) ∧
    group_sentences_into_paragraphs sents k =
      (chunkRangeF (sents.length + 1) k sents).map (joinSep [' ']) := by
  have hfuel : sents.length < sents.length + 1 := Nat.lt_succ_self _
  exact ⟨chunkRangeF_flatten _ k sents hk hfuel,
    chunkRangeF_ne_nil _ k sents hne,
    chunkRangeF_dropLast_len _ k sents hk hfuel,
    chunkRangeF_mem_len _ k sents hk hfuel,
    rfl⟩

/-- Witness for C5 at a concrete input: three sentences, group size two. -/
theorem c5_grouping_partitions_witness :
    1 ≤ 2 ∧ (["A.".toList, "B!".toList, "C?".toList] : List (List Char)) ≠ [] ∧
    ((chunkRangeF 4 2 ["A.".toList, "B!".toList, "C?".toList]).flatten =
        ["A.".toList, "B!".toList, "C?".toList] ∧
      chunkRangeF 4 2 ["A.".toList, "B!".toList, "C?".toList] ≠ [] ∧
      (∀ c ∈ (chunkRangeF 4 2 ["A.".toList, "B!".toList, "C?".toList]).dropLast,
        c.length = 2) ∧
      (∀ c ∈ chunkRangeF 4 2 ["A.".toList, "B!".toList, "C?".toList],
        1 ≤ c.length ∧ c.length ≤ 2) ∧
      group_sentences_into_paragraphs ["A.".toList, "B!".toList, "C?".toList] 2 =
        (chunkRangeF 4 2 ["A.".toList, "B!".toList, "C?".toList]).map (joinSep [' '])) :=
  ⟨by decide, by decide,
    c5_grouping_partitions ["A.".toList, "B!".toList, "C?".toList] 2
      (by decide) (by decide)⟩

/-!
## Claims C7 and C8: the early exits
-/

/-- C7 counterexample: on `data.xyz` when the input file does not exist, the
process exits with the file-does-not-exist message, not the
unsupported-extension message the claim requires "regardless of whether the
input file exists" — the existence check (line 46) runs before the
extension check (line 50). -/
theorem c7_counterexample_missing_file_message :
    validate_args ["prog".toList, "data.xyz".toList, "out.txt".toList]
        (fun _ => false) =
      .error (fileNotFoundMsg "data.xyz".toList) ∧
    fileNotFoundMsg "data.xyz".toList ≠ unsupportedExtensionMsg := by decide

/-- C7 amended: when the input filename's extension is not on the
whitelist, validation fails (so the process exits with non-zero status
before any file is read — `mainModel` errors out identically for every
content oracle): with the unsupported-extension message when the input
file exists, and with the file-does-not-exist message when it does not,
since existence is checked first. -/
theorem c7_bad_extension_always_exits (argv : List (List Char))
    (isfile : List Char → Bool) (fileContent : List Char → List Char)
    (pW pK : Nat) (h3 : 3 ≤ argv.length) (h5 : argv.length ≤ 5)
    (hext : hasAcceptedExt ((argv.drop 1).headD []) = false) :
    validate_args argv isfile =
      .error (if isfile ((argv.drop 1).headD [])
              then unsupportedExtensionMsg
              else fileNotFoundMsg ((argv.drop 1).headD [])) ∧
    mainModel argv isfile fileContent pW pK =
      .error (if isfile ((argv.drop 1).headD [])
              then unsupportedExtensionMsg
              else fileNotFoundMsg ((argv.drop 1).headD [])) := by
  have hlen : ¬ (argv.length < 3 || 5 < argv.length) = true := by
    simp only [Bool.or_eq_true, decide_eq_true_eq]
    omega
  have hval : validate_args argv isfile =
      .error (if isfile ((argv.drop 1).headD [])
              then unsupportedExtensionMsg
              else fileNotFoundMsg ((argv.drop 1).headD [])) := by
    unfold validate_args
    dsimp only
    rw [if_neg hlen]
    cases hfile : isfile ((argv.drop 1).headD []) with
    | false => simp
    | true => rw [hext]; simp
  refine ⟨hval, ?_⟩
  unfold mainModel
  rw [hval]

/-- Witness for C7 at a concrete input (nonexistent `data.xyz`). -/
theorem c7_bad_extension_always_exits_witness :
    3 ≤ (["prog".toList, "data.xyz".toList, "out.txt".toList] : List (List Char)).length ∧
    (["prog".toList, "data.xyz".toList, "out.txt".toList] : List (List Char)).length ≤ 5 ∧
    hasAcceptedExt (((["prog".toList, "data.xyz".toList, "out.txt".toList] :
      List (List Char)).drop 1).headD []) = false ∧
    (validate_args ["prog".toList, "data.xyz".toList, "out.txt".toList] (fun _ => false) =
      .error (if (fun (_ : List Char) => false) (((["prog".toList, "data.xyz".toList,
                  "out.txt".toList] : List (List Char)).drop 1).headD [])
              then unsupportedExtensionMsg
              else fileNotFoundMsg (((["prog".toList, "data.xyz".toList,
                  "out.txt".toList] : List (List Char)).drop 1).headD [])) ∧
      mainModel ["prog".toList, "data.xyz".toList, "out.txt".toList] (fun _ => false)
          (fun _ => []) 70 3 =
        .error (if (fun (_ : List Char) => false) (((["prog".toList, "data.xyz".toList,
                    "out.txt".toList] : List (List Char)).drop 1).headD [])
                then unsupportedExtensionMsg
                else fileNotFoundMsg (((["prog".toList, "data.xyz".toList,
                    "out.txt".toList] : List (List Char)).drop 1).headD []))) :=
  ⟨by decide, by decide, by decide,
    c7_bad_extension_always_exits ["prog".toList, "data.xyz".toList, "out.txt".toList]
      (fun _ => false) (fun _ => []) 70 3 (by decide) (by decide) (by decide)⟩

/-- C8: whenever validation succeeds but the input file's content strips to
nothing, the run exits with the "Input file is empty" message for that
filename; `mainModel` returns an error, and the written-output event (the
`Except.ok` payload carrying what `write_output_file` would receive) is
never produced, so no output-file write is attempted. -/
theorem c8_empty_input_exits (argv : List (List Char)) (isfile : List Char → Bool)
    (fileContent : List Char → List Char) (pW pK : Nat) (args : ArgsOk)
    (hok : validate_args argv isfile = .ok args)
    (hempty : pyStrip (fileContent args.inputFilename) = []) :
    mainModel argv isfile fileContent pW pK =
      .error ("Error: Input file is empty: ".toList ++ args.inputFilename) := by
  unfold mainModel read_input_file
  rw [hok]
  dsimp only
  rw [hempty]
  rfl

/-- Witness for C8 at a concrete input: a whitespace-only file. -/
theorem c8_empty_input_exits_witness :
    validate_args ["prog".toList, "in.txt".toList, "out.txt".toList, "10".toList,
        "3".toList] (fun _ => true) =
      .ok ⟨"in.txt".toList, "out.txt".toList, some 10, some 3⟩ ∧
    pyStrip ((fun (_ : List Char) => "  \n".toList)
      (ArgsOk.inputFilename ⟨"in.txt".toList, "out.txt".toList, some 10, some 3⟩)) = [] ∧
    mainModel ["prog".toList, "in.txt".toList, "out.txt".toList, "10".toList,
        "3".toList] (fun _ => true) (fun _ => "  \n".toList) 70 3 =
      .error ("Error: Input file is empty: ".toList ++
        ArgsOk.inputFilename ⟨"in.txt".toList, "out.txt".toList, some 10, some 3⟩) :=
  ⟨by decide, by decide,
    c8_empty_input_exits _ _ _ 70 3 ⟨"in.txt".toList, "out.txt".toList, some 10, some 3⟩
      (by decide) (by decide)⟩

example : split_into_sentences "A. . B".toList =
    ["A.".toList, ['.'], ['B']] := by decide

example : sentSplitSpecSp "A. . B".toList = ["A.".toList, ['.'], ['B']] := by decide

/-!
## Claim C3 (amended): the splitter equals the space-only reference splitter

The lookbehind scanner of the embedding and the lookahead reference
splitter produce the same raw pieces on every input.  The invariant relates
the two state machines: in skip mode they agree for any lookbehind
character, and in scan mode the embedding agrees with the reference unless
the pending lookbehind is terminal punctuation and a space comes first,
in which case the embedding splits immediately.
-/


theorem specCond_iff_sp (c : Char) (rest : List Char) :
    ((isTerminal c && rest.head?.elim false fun d => decide (d = ' ')) = true) ↔
      (isTerminal c = true ∧ rest.head? = some ' ') := by
  cases rest with
  | nil => simp
  | cons d r2 => simp [List.head?_cons]

theorem splitSent_eq_spec :
    ∀ (s : List Char),
      (∀ prev, splitSentAux true prev s = specSplitSpAux true s) ∧
      (∀ prev, splitSentAux false prev s =
        if isTerminal prev = true ∧ s.head? = some ' ' then
          [] :: specSplitSpAux true s.tail
        else specSplitSpAux false s) := by
  intro s
  induction s with
  | nil =>
      refine ⟨fun prev => rfl, fun prev => ?_⟩
      rw [if_neg (by rintro ⟨-, h⟩; exact Option.noConfusion h)]
      rfl
  | cons c rest ih =>
      have hskip : ∀ r2, rest = ' ' :: r2 →
          specSplitSpAux true rest = specSplitSpAux true r2 := by
        intro r2 hr
        subst hr
        rw [specSplitSpAux, if_pos rfl]
      have hcons : ∀ (hh : rest.head? = some ' '), ∃ r2, rest = ' ' :: r2 := by
        intro hh
        cases rest with
        | nil => exact absurd hh (by simp)
        | cons d r2 =>
            rw [List.head?_cons, Option.some.injEq] at hh
            exact ⟨r2, by rw [hh]⟩
      constructor
      · intro prev
        rw [splitSentAux, specSplitSpAux]
        by_cases hc : c = ' '
        · rw [if_pos hc, if_pos hc]
          exact ih.1 ' '
        · rw [if_neg hc, if_neg hc]
          rw [ih.2 c]
          by_cases hterm : isTerminal c = true ∧ rest.head? = some ' '
          · rw [if_pos hterm, if_pos ((specCond_iff_sp c rest).mpr hterm)]
            obtain ⟨r2, hr⟩ := hcons hterm.2
            rw [hskip r2 hr, hr]
            rfl
          · rw [if_neg hterm, if_neg (fun hcc => hterm ((specCond_iff_sp c rest).mp hcc))]
      · intro prev
        rw [splitSentAux]
        by_cases hsplit : c = ' ' ∧ isTerminal prev = true
        · obtain ⟨hc, hp⟩ := hsplit
          rw [if_pos (by simp [hc, hp])]
          rw [if_pos ⟨hp, by rw [List.head?_cons, hc]⟩]
          show [] :: splitSentAux true ' ' rest = [] :: specSplitSpAux true (c :: rest).tail
          rw [ih.1 ' ']
          rfl
        · rw [if_neg (by
            simp only [Bool.and_eq_true, decide_eq_true_eq]
            exact fun h => hsplit ⟨h.1, h.2⟩)]
          rw [if_neg (by
            rintro ⟨hp, hh⟩
            rw [List.head?_cons, Option.some.injEq] at hh
            exact hsplit ⟨hh, hp⟩)]
          rw [specSplitSpAux]
          rw [ih.2 c]
          by_cases hterm : isTerminal c = true ∧ rest.head? = some ' '
          · rw [if_pos hterm, if_pos ((specCond_iff_sp c rest).mpr hterm)]
            obtain ⟨r2, hr⟩ := hcons hterm.2
            rw [hskip r2 hr, hr]
            rfl
          · rw [if_neg hterm, if_neg (fun hcc => hterm ((specCond_iff_sp c rest).mp hcc))]

/-- C3 amended: for every input string the sentence splitter behaves as the
claim says with "whitespace" replaced by "the space character": it splits
exactly where terminal punctuation is immediately followed by one or more
spaces, keeps the punctuation on the preceding piece, discards the
separating spaces, trims each piece and discards blank pieces (so a text
with no such boundary and at least one non-whitespace character yields the
single sentence equal to the whole trimmed text, and an all-whitespace
text yields no sentences at all). -/
theorem c3_split_matches_space_reference (text : List Char) :
    split_into_sentences text = sentSplitSpecSp text := by
  unfold split_into_sentences sentSplitSpecSp
  rw [(splitSent_eq_spec text).2 ' ']
  rw [if_neg]
  rintro ⟨h, -⟩
  simp [isTerminal] at h

/-!
## Claim C6: whitespace normalization

The specification's reading (glossary: "collapsing any run of
space/tab/newline characters to a single space and trimming the result") is
rendered as a character-level state machine `collapseWsAux` followed by a
trim; the embedding's `normalizeWs` is `" ".join(content.split())`.  The two
are proved equal on every input.
-/

/-- Collapse every whitespace run to a single space (specification
wording).  The flag is `true` while inside a run whose single space has
already been emitted. -/
def collapseWsAux : Bool → List Char → List Char
  | _, [] => []
  | true, c :: rest =>
      if isPyWs c then collapseWsAux true rest else c :: collapseWsAux false rest
  | false, c :: rest =>
      if isPyWs c then ' ' :: collapseWsAux true rest else c :: collapseWsAux false rest

/-- The specification's normalization: collapse whitespace runs to single
spaces, then trim. -/
def specNormalize (s : List Char) : List Char :=
  pyStrip (collapseWsAux false s)

/-- Left trim. -/
def lstripWs (l : List Char) : List Char := l.dropWhile isPyWs

/-- Right trim. -/
def rstripWs (l : List Char) : List Char := (l.reverse.dropWhile isPyWs).reverse

theorem pyStrip_eq_rl (l : List Char) : pyStrip l = rstripWs (lstripWs l) := rfl

theorem collapseWsAux_true_eq (r : List Char) :
    collapseWsAux true r = collapseWsAux false (r.dropWhile isPyWs) := by
  induction r with
  | nil => rfl
  | cons d r' ih =>
      by_cases hd : isPyWs d = true
      · rw [collapseWsAux, if_pos hd, List.dropWhile_cons, if_pos hd, ih]
      · rw [collapseWsAux, if_neg hd, List.dropWhile_cons, if_neg hd,
          collapseWsAux, if_neg hd]

theorem pySplitWs_cons_ws {c : Char} (l : List Char) (hc : isPyWs c = true) :
    pySplitWs (c :: l) = pySplitWs l := by
  unfold pySplitWs
  rw [List.splitOnP_cons, if_pos hc, List.filter_cons]
  simp

theorem pySplitWs_lstrip (s : List Char) :
    pySplitWs (s.dropWhile isPyWs) = pySplitWs s := by
  induction s with
  | nil => rfl
  | cons c r ih =>
      by_cases hc : isPyWs c = true
      · rw [List.dropWhile_cons, if_pos hc, ih, pySplitWs_cons_ws r hc]
      · rw [List.dropWhile_cons, if_neg hc]

theorem collapseWsAux_word (w u : List Char) (hw : ∀ c ∈ w, isPyWs c = false) :
    collapseWsAux false (w ++ u) = w ++ collapseWsAux false u := by
  induction w with
  | nil => rfl
  | cons a w' ih =>
      have ha : isPyWs a = false := hw a (by simp)
      rw [List.cons_append, collapseWsAux, if_neg (by rw [ha]; simp),
        ih (fun c hc => hw c (by simp [hc])), List.cons_append]

theorem rstripWs_word_append (w X : List Char) (hw : ∀ c ∈ w, isPyWs c = false) :
    rstripWs (w ++ X) = w ++ rstripWs X := by
  unfold rstripWs
  rw [List.reverse_append, List.dropWhile_append]
  by_cases hX : (X.reverse.dropWhile isPyWs).isEmpty = true
  · rw [if_pos hX]
    have hrev : w.reverse.dropWhile isPyWs = w.reverse := by
      cases hwrev : w.reverse with
      | nil => rfl
      | cons b bs =>
          rw [List.dropWhile_cons, if_neg]
          rw [hw b (by
            have : b ∈ w.reverse := by rw [hwrev]; simp
            exact List.mem_reverse.mp this)]
          simp
    rw [hrev, List.reverse_reverse]
    have : X.reverse.dropWhile isPyWs = [] := by
      cases h : X.reverse.dropWhile isPyWs with
      | nil => rfl
      | cons b bs => rw [h] at hX; simp at hX
    rw [this]
    simp
  · rw [if_neg hX, List.reverse_append]
    rw [List.reverse_reverse]

theorem length_dropWhile_le' (p : Char → Bool) (l : List Char) :
    (l.dropWhile p).length ≤ l.length := by
  induction l with
  | nil => simp
  | cons c r ih =>
      rw [List.dropWhile_cons]
      by_cases hc : p c = true
      · rw [if_pos hc]; exact Nat.le_succ_of_le ih
      · rw [if_neg hc]

theorem dropWhile_eq_cons_head_false (p : Char → Bool) :
    ∀ (l : List Char) (b : Char) (bs : List Char),
      l.dropWhile p = b :: bs → p b = false := by
  intro l
  induction l with
  | nil => intro b bs h; exact absurd h (by simp)
  | cons c r ih =>
      intro b bs h
      rw [List.dropWhile_cons] at h
      by_cases hc : p c = true
      · rw [if_pos hc] at h; exact ih b bs h
      · rw [if_neg hc] at h
        injection h with h1 _
        subst h1
        simpa using hc

theorem dropWhile_dropWhile (p : Char → Bool) (l : List Char) :
    (l.dropWhile p).dropWhile p = l.dropWhile p := by
  cases h : l.dropWhile p with
  | nil => rfl
  | cons b bs =>
      have hb : p b = false := dropWhile_eq_cons_head_false p l b bs h
      rw [List.dropWhile_cons, if_neg (by rw [hb]; simp)]

theorem lstrip_collapseWsAux :
    ∀ (n : Nat) (s : List Char), s.length ≤ n →
      lstripWs (collapseWsAux false s) = collapseWsAux false (lstripWs s) := by
  intro n
  induction n with
  | zero =>
      intro s hs
      have : s = [] := List.eq_nil_of_length_eq_zero (Nat.le_zero.mp hs)
      subst this; rfl
  | succ n ih =>
      intro s hs
      match s with
      | [] => rfl
      | c :: r =>
          by_cases hc : isPyWs c = true
          · rw [collapseWsAux, if_pos hc, collapseWsAux_true_eq]
            show lstripWs (' ' :: collapseWsAux false (r.dropWhile isPyWs)) = _
            rw [show lstripWs (' ' :: collapseWsAux false (r.dropWhile isPyWs)) =
                lstripWs (collapseWsAux false (r.dropWhile isPyWs)) from by
              unfold lstripWs
              rw [List.dropWhile_cons, if_pos (by decide)]]
            rw [ih (r.dropWhile isPyWs) (by
              have := length_dropWhile_le' isPyWs r
              simp only [List.length_cons] at hs
              omega)]
            unfold lstripWs
            rw [dropWhile_dropWhile, List.dropWhile_cons, if_pos hc]
          · rw [collapseWsAux, if_neg hc]
            unfold lstripWs
            rw [List.dropWhile_cons, if_neg hc, List.dropWhile_cons, if_neg hc,
              collapseWsAux, if_neg hc]

theorem rstripWs_cons_space_nil (X : List Char) (h : rstripWs X = []) :
    rstripWs (' ' :: X) = [] := by
  unfold rstripWs at *
  rw [show (' ' :: X).reverse = X.reverse ++ [' '] from by simp]
  rw [List.dropWhile_append]
  have hnil : X.reverse.dropWhile isPyWs = [] := by
    cases hcase : X.reverse.dropWhile isPyWs with
    | nil => rfl
    | cons b bs => rw [hcase] at h; simp at h
  rw [if_pos (by rw [hnil]; rfl)]
  rfl

theorem rstripWs_cons_space (X : List Char) (h : rstripWs X ≠ []) :
    rstripWs (' ' :: X) = ' ' :: rstripWs X := by
  unfold rstripWs at *
  rw [show (' ' :: X).reverse = X.reverse ++ [' '] from by simp]
  rw [List.dropWhile_append]
  have hne : ¬ (X.reverse.dropWhile isPyWs).isEmpty = true := by
    intro hh
    apply h
    cases hcase : X.reverse.dropWhile isPyWs with
    | nil => rfl
    | cons b bs => rw [hcase] at hh; simp at hh
  rw [if_neg hne, List.reverse_append]
  rfl

theorem joinSep_cons_ne_nil (sep : List Char) (x : List Char) (xs : List (List Char))
    (hx : x ≠ []) : joinSep sep (x :: xs) ≠ [] := by
  cases xs with
  | nil => exact hx
  | cons y r =>
      show x ++ sep ++ joinSep sep (y :: r) ≠ []
      simp [hx]

theorem pySplitWs_mem_ne_nil {x : List Char} {s : List Char}
    (hx : x ∈ pySplitWs s) : x ≠ [] := by
  unfold pySplitWs at hx
  have := List.of_mem_filter hx
  simpa [List.isEmpty_iff] using this

theorem rstrip_collapse_eq_join :
    ∀ (n : Nat) (s : List Char), s.length ≤ n →
      (∀ d, s.head? = some d → isPyWs d = false) →
      rstripWs (collapseWsAux false s) = joinSep [' '] (pySplitWs s) := by
  intro n
  induction n with
  | zero =>
      intro s hs _
      have : s = [] := List.eq_nil_of_length_eq_zero (Nat.le_zero.mp hs)
      subst this; rfl
  | succ n ih =>
      intro s hs hhead
      match s with
      | [] => rfl
      | c :: r =>
          have hc : isPyWs c = false := hhead c rfl
          obtain ⟨w, u, hwdef, hudef⟩ :
              ∃ w u, w = (c :: r).takeWhile (fun d => !isPyWs d) ∧
                u = (c :: r).dropWhile (fun d => !isPyWs d) := ⟨_, _, rfl, rfl⟩
          have hw : ∀ x ∈ w, isPyWs x = false := by
            intro x hx
            rw [hwdef] at hx
            have := List.mem_takeWhile_imp hx
            simpa using this
          have hwB : ∀ x ∈ w, ¬ isPyWs x = true := by
            intro x hx
            rw [hw x hx]
            exact Bool.false_ne_true
          have hwne : w ≠ [] := by
            rw [hwdef, List.takeWhile_cons, if_pos (by rw [hc]; rfl)]
            exact List.cons_ne_nil _ _
          have happ : w ++ u = c :: r := by
            rw [hwdef, hudef]
            exact List.takeWhile_append_dropWhile _ _
          have hkeep : (!w.isEmpty) = true := by
            cases hcw : w with
            | nil => exact absurd hcw hwne
            | cons a as => rfl
          rw [← happ, collapseWsAux_word w u hw, rstripWs_word_append w _ hw]
          cases u with
          | nil =>
              rw [show rstripWs (collapseWsAux false []) = [] from rfl,
                List.append_nil]
              unfold pySplitWs
              rw [List.splitOnP_eq_single isPyWs w hwB, List.filter_cons, if_pos hkeep]
              rfl
          | cons d u' =>
              have hd : isPyWs d = true := by
                have := dropWhile_eq_cons_head_false (fun e => !isPyWs e) (c :: r) d u'
                  hudef.symm
                simpa using this
              have hsplit : pySplitWs (w ++ d :: u') = w :: pySplitWs u' := by
                unfold pySplitWs
                rw [List.splitOnP_first isPyWs w hwB d hd u', List.filter_cons,
                  if_pos hkeep]
              have hcu : collapseWsAux false (d :: u') =
                  ' ' :: collapseWsAux false (u'.dropWhile isPyWs) := by
                rw [collapseWsAux, if_pos hd, collapseWsAux_true_eq]
              have hpu : pySplitWs u' = pySplitWs (u'.dropWhile isPyWs) :=
                (pySplitWs_lstrip u').symm
              have hvhead : ∀ e, (u'.dropWhile isPyWs).head? = some e →
                  isPyWs e = false := by
                intro e he
                cases hv : u'.dropWhile isPyWs with
                | nil => rw [hv] at he; exact absurd he (by simp)
                | cons x xs =>
                    rw [hv] at he
                    rw [List.head?_cons, Option.some.injEq] at he
                    subst he
                    exact dropWhile_eq_cons_head_false isPyWs u' x xs hv
              have hvlen : (u'.dropWhile isPyWs).length ≤ n := by
                have h1 := length_dropWhile_le' isPyWs u'
                have h2 : (d :: u').length ≤ (c :: r).length := by
                  rw [hudef]
                  exact length_dropWhile_le' _ _
                simp only [List.length_cons] at h2 hs
                omega
              have hIH := ih (u'.dropWhile isPyWs) hvlen hvhead
              rw [hsplit, hcu, hpu]
              cases hx : pySplitWs (u'.dropWhile isPyWs) with
              | nil =>
                  rw [hx] at hIH
                  rw [show joinSep [' '] ([] : List (List Char)) = [] from rfl] at hIH
                  rw [rstripWs_cons_space_nil _ hIH, List.append_nil]
                  rfl
              | cons x xs =>
                  rw [hx] at hIH
                  have hxne : x ≠ [] :=
                    pySplitWs_mem_ne_nil (by rw [hx]; exact List.mem_cons_self x xs)
                  have hrne : rstripWs (collapseWsAux false (u'.dropWhile isPyWs)) ≠ [] := by
                    rw [hIH]
                    exact joinSep_cons_ne_nil [' '] x xs hxne
                  rw [rstripWs_cons_space _ hrne, hIH]
                  rw [show joinSep [' '] (w :: x :: xs) =
                    w ++ [' '] ++ joinSep [' '] (x :: xs) from rfl]
                  rw [List.append_assoc]
                  rfl

/-- C6: the normalization step `" ".join(content.split())` equals the
specification's normalization (collapse every whitespace run to a single
space, then trim), on every input string. -/
theorem c6_normalize_matches_spec (s : List Char) :
    normalizeWs s = specNormalize s := by
  rw [specNormalize, pyStrip_eq_rl,
    lstrip_collapseWsAux s.length s (Nat.le_refl _)]
  rw [rstrip_collapse_eq_join (lstripWs s).length (lstripWs s) (Nat.le_refl _) ?hhead]
  case hhead =>
    intro d hd
    cases hv : lstripWs s with
    | nil => rw [hv] at hd; exact absurd hd (by simp)
    | cons x xs =>
        rw [hv] at hd
        rw [List.head?_cons, Option.some.injEq] at hd
        subst hd
        exact dropWhile_eq_cons_head_false isPyWs s x xs hv
  rw [show lstripWs s = s.dropWhile isPyWs from rfl, pySplitWs_lstrip]
  rfl

/-!
## Chunk invariants of the word-separation split

Every chunk produced by `wordsepSplit` is nonempty and homogeneous (all
whitespace or whitespace-free), no two adjacent chunks are both whitespace
(whitespace chunks are maximal runs), and the chunks concatenate back to
the input.  These invariants are what the line-filling loop relies on.
-/

/-- A chunk of pure whitespace. -/
def wsChunk (l : List Char) : Prop := ∀ c ∈ l, isPyWs c = true

/-- A whitespace-free chunk. -/
def wordChunk (l : List Char) : Prop := ∀ c ∈ l, isPyWs c = false

/-- The invariant carried through `_wrap_chunks`: all chunks nonempty and
homogeneous, no two adjacent whitespace chunks. -/
def GoodChunks (chunks : List (List Char)) : Prop :=
  (∀ x ∈ chunks, x ≠ [] ∧ (wsChunk x ∨ wordChunk x)) ∧
  List.Chain' (fun a b => wsChunk a → ¬ wsChunk b) chunks

theorem wsChunk_decide (l : List Char) : (pyStrip l).isEmpty = true ↔ wsChunk l := by
  constructor
  · intro h
    have hnil : pyStrip l = [] := by
      cases hc : pyStrip l with
      | nil => rfl
      | cons a as => rw [hc] at h; exact absurd h (by simp)
    unfold pyStrip at hnil
    have h2 : (l.dropWhile isPyWs).reverse.dropWhile isPyWs = [] := by
      cases hc : (l.dropWhile isPyWs).reverse.dropWhile isPyWs with
      | nil => rfl
      | cons a as => rw [hc] at hnil; exact absurd hnil (by simp)
    have h3 : ∀ x ∈ (l.dropWhile isPyWs).reverse, isPyWs x = true :=
      List.dropWhile_eq_nil_iff.mp h2
    intro c hc
    have : c ∈ l.takeWhile isPyWs ∨ c ∈ l.dropWhile isPyWs := by
      have := List.takeWhile_append_dropWhile isPyWs l
      rw [← this] at hc
      exact List.mem_append.mp hc
    rcases this with h | h
    · exact List.mem_takeWhile_imp h
    · exact h3 c (List.mem_reverse.mpr h)
  · intro h
    have h1 : l.dropWhile isPyWs = [] := List.dropWhile_eq_nil_iff.mpr h
    unfold pyStrip
    rw [h1]
    rfl

theorem wordChunk_not_ws {l : List Char} (hne : l ≠ []) (hw : wordChunk l) :
    ¬ wsChunk l := by
  intro hws
  cases l with
  | nil => exact hne rfl
  | cons a as =>
      have h1 := hw a (by simp)
      have h2 := hws a (by simp)
      rw [h1] at h2
      exact Bool.false_ne_true h2

theorem a3Scan_spec (rev rest : List Char) :
    (a3Scan rev rest).1 ++ (a3Scan rev rest).2 = rest ∧
    (∀ c ∈ (a3Scan rev rest).1, isPyWs c = false) := by
  induction rest generalizing rev with
  | nil => exact ⟨rfl, by intro c hc; exact absurd hc (List.not_mem_nil c)⟩
  | cons c r ih =>
      rw [a3Scan]
      by_cases h1 : wordHyphClose rev (c :: r) = true
      · rw [if_pos h1]
        refine ⟨rfl, ?_⟩
        intro x hx
        have hxc : x = c := by simpa using hx
        have hch : c = '-' := by
          unfold wordHyphClose at h1
          simp only [Bool.and_eq_true, decide_eq_true_eq] at h1
          exact h1.1.1
        rw [hxc, hch]
        decide
      · rw [if_neg h1]
        by_cases h2 : wordEndClose (c :: r) = true
        · rw [if_pos h2]
          exact ⟨rfl, by intro x hx; exact absurd hx (List.not_mem_nil x)⟩
        · rw [if_neg h2]
          by_cases h3 : wordEmDashClose rev (c :: r) = true
          · rw [if_pos h3]
            exact ⟨rfl, by intro x hx; exact absurd hx (List.not_mem_nil x)⟩
          · rw [if_neg h3]
            have hcne : isPyWs c = false := by
              unfold wordEndClose at h2
              simpa using h2
            obtain ⟨ihl, ihr⟩ := ih (c :: rev)
            refine ⟨?_, ?_⟩
            · show (c :: (a3Scan (c :: rev) r).1) ++ (a3Scan (c :: rev) r).2 = c :: r
              rw [List.cons_append, ihl]
            · intro x hx
              rcases List.mem_cons.mp hx with h | h
              · subst h; exact hcne
              · exact ihr x h

theorem wordsepAuxF_nil (fuel : Nat) (rev : List Char) :
    wordsepAuxF fuel rev [] = [] := by
  cases fuel <;> rfl

theorem emDashLen_inv {rev rest : List Char} {m : Nat}
    (h : emDashLen rev rest = some m) : m = hyphenRunLen rest ∧ 2 ≤ m := by
  unfold emDashLen at h
  cases rev with
  | nil => exact absurd h (by simp)
  | cons p pr =>
      dsimp only at h
      by_cases hc : (isWordPunct p && emDashAhead rest) = true
      · rw [if_pos hc] at h
        injection h with h1
        have h2 : 2 ≤ hyphenRunLen rest := by
          unfold emDashAhead at hc
          simp only [Bool.and_eq_true, decide_eq_true_eq] at hc
          exact hc.2.1
        exact ⟨h1.symm, h1 ▸ h2⟩
      · rw [if_neg hc] at h
        exact absurd h (by simp)

theorem take_hyphenRun_hyphens (s : List Char) :
    ∀ x ∈ s.take (hyphenRunLen s), x = '-' := by
  induction s with
  | nil => intro x hx; simp at hx
  | cons c r ih =>
      intro x hx
      by_cases hc : c = '-'
      · rw [show hyphenRunLen (c :: r) = hyphenRunLen r + 1 from by
          unfold hyphenRunLen
          rw [List.takeWhile_cons, if_pos (by rw [hc]; simp)]
          rfl] at hx
        rw [List.take_succ_cons] at hx
        rcases List.mem_cons.mp hx with h | h
        · rw [h, hc]
        · exact ih x h
      · rw [show hyphenRunLen (c :: r) = 0 from by
          unfold hyphenRunLen
          rw [List.takeWhile_cons, if_neg (by simpa using hc)]
          rfl] at hx
        simp at hx

theorem wordsepAuxF_head_word :
    ∀ (fuel : Nat) (rev : List Char) (hd : Char) (tl : List Char),
      isPyWs hd = false →
      ∀ y, (wordsepAuxF fuel rev (hd :: tl)).head? = some y →
        y ≠ [] ∧ wordChunk y := by
  intro fuel rev hd tl hhd y hy
  cases fuel with
  | zero => exact absurd hy (by rw [wordsepAuxF]; simp)
  | succ n =>
      rw [wordsepAuxF] at hy
      rw [if_neg (by rw [hhd]; simp)] at hy
      cases hm : emDashLen rev (hd :: tl) with
      | some m =>
          rw [hm] at hy
          rw [List.head?_cons, Option.some.injEq] at hy
          subst hy
          obtain ⟨hm1, hm2⟩ := emDashLen_inv hm
          constructor
          · rw [List.take_cons (by omega : 0 < m)]
            exact List.cons_ne_nil _ _
          · intro ch hch
            have : ch = '-' := by
              apply take_hyphenRun_hyphens (hd :: tl)
              rw [← hm1]
              exact hch
            rw [this]
            decide
      | none =>
          rw [hm] at hy
          rw [List.head?_cons, Option.some.injEq] at hy
          subst hy
          obtain ⟨-, hw⟩ := a3Scan_spec (hd :: rev) tl
          refine ⟨List.cons_ne_nil _ _, ?_⟩
          intro ch hch
          rcases List.mem_cons.mp hch with h | h
          · rw [h]; exact hhd
          · exact hw ch h

theorem wordsepAuxF_spec :
    ∀ (fuel : Nat) (rev s : List Char), s.length < fuel →
      (wordsepAuxF fuel rev s).flatten = s ∧
      (∀ x ∈ wordsepAuxF fuel rev s, x ≠ [] ∧ (wsChunk x ∨ wordChunk x)) ∧
      List.Chain' (fun a b => wsChunk a → ¬ wsChunk b) (wordsepAuxF fuel rev s) := by
  intro fuel
  induction fuel with
  | zero => intro rev s hs; exact absurd hs (Nat.not_lt_zero _)
  | succ n ih =>
      intro rev s hs
      match s with
      | [] => exact ⟨rfl, by intro x hx; exact absurd hx (by simp [wordsepAuxF_nil]),
          by rw [wordsepAuxF_nil]; exact List.chain'_nil⟩
      | c :: r =>
          rw [wordsepAuxF]
          by_cases hc : isPyWs c = true
          · rw [if_pos hc]
            have hrun : (c :: r).takeWhile isPyWs = c :: r.takeWhile isPyWs := by
              rw [List.takeWhile_cons, if_pos hc]
            have hdrop : (c :: r).dropWhile isPyWs = r.dropWhile isPyWs := by
              rw [List.dropWhile_cons, if_pos hc]
            have hlen : ((c :: r).dropWhile isPyWs).length < n := by
              rw [hdrop]
              have := length_dropWhile_le' isPyWs r
              simp only [List.length_cons] at hs
              omega
            obtain ⟨ihf, ihm, ihc⟩ := ih _ _ hlen
            refine ⟨?_, ?_, ?_⟩
            · rw [List.flatten_cons, ihf, List.takeWhile_append_dropWhile]
            · intro x hx
              rcases List.mem_cons.mp hx with h | h
              · subst h
                refine ⟨by rw [hrun]; exact List.cons_ne_nil _ _, Or.inl ?_⟩
                intro ch hch
                exact List.mem_takeWhile_imp hch
              · exact ihm x h
            · rw [List.chain'_cons']
              refine ⟨?_, ihc⟩
              intro y hy _
              cases hd2 : (c :: r).dropWhile isPyWs with
              | nil => rw [hd2, wordsepAuxF_nil] at hy; exact absurd hy (by simp)
              | cons d t2 =>
                  have hdne : isPyWs d = false :=
                    dropWhile_eq_cons_head_false isPyWs (c :: r) d t2 hd2
                  rw [hd2] at hy
                  obtain ⟨hyne, hyw⟩ := wordsepAuxF_head_word n _ d t2 hdne y hy
                  exact wordChunk_not_ws hyne hyw
          · rw [if_neg hc]
            have hc' : isPyWs c = false := by
              cases hcc : isPyWs c with
              | false => rfl
              | true => exact absurd hcc hc
            cases hm : emDashLen rev (c :: r) with
            | some m =>
                obtain ⟨hm1, hm2⟩ := emDashLen_inv hm
                have htake : ∀ x ∈ (c :: r).take m, x = '-' := by
                  intro x hx
                  apply take_hyphenRun_hyphens (c :: r)
                  rw [← hm1]
                  exact hx
                have hlen : ((c :: r).drop m).length < n := by
                  rw [List.length_drop]
                  simp only [List.length_cons] at hs ⊢
                  omega
                obtain ⟨ihf, ihm, ihc⟩ := ih _ _ hlen
                refine ⟨?_, ?_, ?_⟩
                · rw [List.flatten_cons, ihf, List.take_append_drop]
                · intro x hx
                  rcases List.mem_cons.mp hx with h | h
                  · subst h
                    refine ⟨?_, Or.inr ?_⟩
                    · rw [List.take_cons (by omega : 0 < m)]
                      exact List.cons_ne_nil _ _
                    · intro ch hch
                      rw [htake ch hch]
                      decide
                  · exact ihm x h
                · rw [List.chain'_cons']
                  refine ⟨?_, ihc⟩
                  intro y _ hws
                  exact absurd (hws c (by
                    rw [List.take_cons (by omega : 0 < m)]
                    simp)) (by rw [hc']; simp)
            | none =>
                have hlen : ((a3Scan (c :: rev) r).2).length < n := by
                  obtain ⟨ha, -⟩ := a3Scan_spec (c :: rev) r
                  have : (a3Scan (c :: rev) r).1.length +
                      (a3Scan (c :: rev) r).2.length = r.length := by
                    rw [← List.length_append, ha]
                  simp only [List.length_cons] at hs
                  omega
                obtain ⟨ihf, ihm, ihc⟩ := ih _ _ hlen
                obtain ⟨ha, haw⟩ := a3Scan_spec (c :: rev) r
                refine ⟨?_, ?_, ?_⟩
                · rw [List.flatten_cons, ihf, List.cons_append, ha]
                · intro x hx
                  rcases List.mem_cons.mp hx with h | h
                  · subst h
                    refine ⟨List.cons_ne_nil _ _, Or.inr ?_⟩
                    intro ch hch
                    rcases List.mem_cons.mp hch with h | h
                    · rw [h]; exact hc'
                    · exact haw ch h
                  · exact ihm x h
                · rw [List.chain'_cons']
                  refine ⟨?_, ihc⟩
                  intro y _ hws
                  exact absurd (hws c (by simp)) (by rw [hc']; simp)

/-- The chunks of any text are good and concatenate back to the text. -/
theorem wordsepSplit_spec (s : List Char) :
    (wordsepSplit s).flatten = s ∧ GoodChunks (wordsepSplit s) := by
  obtain ⟨h1, h2, h3⟩ := wordsepAuxF_spec (s.length + 1) [] s (Nat.lt_succ_self _)
  exact ⟨h1, h2, h3⟩

/-!
## Properties of one `_wrap_chunks` iteration
-/

theorem sumLen_nil : sumLen [] = 0 := rfl

theorem sumLen_cons (c : List Char) (l : List (List Char)) :
    sumLen (c :: l) = c.length + sumLen l := by
  unfold sumLen
  rw [List.map_cons, List.sum_cons]

theorem sumLen_append (a b : List (List Char)) :
    sumLen (a ++ b) = sumLen a + sumLen b := by
  unfold sumLen
  rw [List.map_append, List.sum_append]

theorem sumLen_reverse (l : List (List Char)) : sumLen l.reverse = sumLen l := by
  unfold sumLen
  rw [List.map_reverse, List.sum_reverse]

theorem flatten_reverse_length (l : List (List Char)) :
    l.reverse.flatten.length = sumLen l := by
  rw [List.length_flatten, ← sumLen_reverse]
  rfl

theorem innerFill_spec (width : Nat) :
    ∀ (chunks : List (List Char)) (curLen : Nat) (clr : List (List Char)),
      (innerFill width curLen clr chunks).1.reverse ++
          (innerFill width curLen clr chunks).2.2 = clr.reverse ++ chunks ∧
      (innerFill width curLen clr chunks).2.1 + sumLen clr =
        curLen + sumLen (innerFill width curLen clr chunks).1 ∧
      (curLen ≤ width → (innerFill width curLen clr chunks).2.1 ≤ width) ∧
      (∀ c' rest', (innerFill width curLen clr chunks).2.2 = c' :: rest' →
        ¬ ((innerFill width curLen clr chunks).2.1 + c'.length ≤ width)) := by
  intro chunks
  induction chunks with
  | nil =>
      intro curLen clr
      refine ⟨rfl, rfl, fun h => h, ?_⟩
      intro c' rest' h
      have h2 : ([] : List (List Char)) = c' :: rest' := h
      exact absurd h2 (by simp)
  | cons c rest ih =>
      intro curLen clr
      rw [innerFill]
      by_cases hfit : curLen + c.length ≤ width
      · rw [if_pos hfit]
        obtain ⟨ih1, ih2, ih3, ih4⟩ := ih (curLen + c.length) (c :: clr)
        refine ⟨?_, ?_, ?_, ih4⟩
        · rw [ih1, List.reverse_cons, List.append_assoc]
          rfl
        · rw [sumLen_cons] at ih2
          omega
        · intro _
          exact ih3 hfit
      · rw [if_neg hfit]
        refine ⟨rfl, rfl, fun h => h, ?_⟩
        intro c' rest' h
        injection h with h1 h2
        subst h1
        exact hfit

theorem pyRfindHyphen_bound {chunk : List Char} {stop h : Nat}
    (hh : pyRfindHyphen chunk stop = some h) : h + 1 ≤ stop := by
  unfold pyRfindHyphen at hh
  cases hj : (chunk.take stop).reverse.findIdx? (fun c => c = '-') with
  | none => rw [hj] at hh; exact absurd hh (by simp)
  | some j =>
      rw [hj] at hh
      have hh2 : (chunk.take stop).length - 1 - j = h := Option.some.inj hh
      have hne : (chunk.take stop) ≠ [] := by
        intro hnil
        rw [hnil] at hj
        exact absurd hj (by simp)
      have hlen1 : 1 ≤ (chunk.take stop).length := by
        cases hcc : chunk.take stop with
        | nil => exact absurd hcc hne
        | cons a as => simp
      have hlen2 : (chunk.take stop).length ≤ stop := by
        rw [List.length_take]
        exact Nat.min_le_left _ _
      omega

theorem breakLongEnd_le (chunk : List Char) (spaceLeft : Nat) :
    breakLongEnd chunk spaceLeft ≤ spaceLeft := by
  unfold breakLongEnd
  by_cases h1 : spaceLeft < chunk.length
  · rw [if_pos h1]
    cases hr : pyRfindHyphen chunk spaceLeft with
    | none => exact Nat.le_refl _
    | some hy =>
        dsimp only
        by_cases h2 : (0 < hy && (chunk.take hy).any (fun c => c ≠ '-')) = true
        · rw [if_pos h2]
          exact pyRfindHyphen_bound hr
        · rw [if_neg h2]
  · rw [if_neg h1]

theorem breakLongEnd_pos (chunk : List Char) (spaceLeft : Nat)
    (h : 1 ≤ spaceLeft) : 1 ≤ breakLongEnd chunk spaceLeft := by
  unfold breakLongEnd
  by_cases h1 : spaceLeft < chunk.length
  · rw [if_pos h1]
    cases hr : pyRfindHyphen chunk spaceLeft with
    | none => exact h
    | some hy =>
        dsimp only
        by_cases h2 : (0 < hy && (chunk.take hy).any (fun c => c ≠ '-')) = true
        · rw [if_pos h2]; omega
        · rw [if_neg h2]; exact h
  · rw [if_neg h1]; exact h

theorem revFlatten_getLast (h : List Char) (rest : List (List Char)) (hne : h ≠ []) :
    ((h :: rest).reverse.flatten).getLast? = h.getLast? := by
  rw [List.reverse_cons, List.flatten_append]
  have h1 : ([h] : List (List Char)).flatten = h := by
    rw [List.flatten_cons]
    simp
  rw [h1, List.getLast?_append]
  obtain ⟨a, ha⟩ : ∃ a, h.getLast? = some a := by
    cases hg : h.getLast? with
    | none =>
        have := List.getLast?_isSome.mpr hne
        rw [hg] at this
        exact absurd this (by simp)
    | some a => exact ⟨a, rfl⟩
  rw [ha]
  simp

theorem revFlatten_line_facts (width : Nat) (h : List Char) (rest : List (List Char))
    (hne : h ≠ []) (hword : wordChunk h)
    (hlen : sumLen (h :: rest) ≤ width) :
    (h :: rest).reverse.flatten ≠ [] ∧
    (h :: rest).reverse.flatten.length ≤ width ∧
    (∀ ch, ((h :: rest).reverse.flatten).getLast? = some ch → isPyWs ch = false) := by
  have hlen2 : (h :: rest).reverse.flatten.length = sumLen (h :: rest) :=
    flatten_reverse_length _
  refine ⟨?_, by omega, ?_⟩
  · intro hnil
    have : (h :: rest).reverse.flatten.length = 0 := by rw [hnil]; rfl
    rw [hlen2, sumLen_cons] at this
    have : h.length = 0 := by omega
    exact hne (List.length_eq_zero.mp this)
  · intro ch hch
    rw [revFlatten_getLast h rest hne] at hch
    exact hword ch (List.mem_of_mem_getLast? (by rw [hch]; simp))

theorem dropTrailing_line_spec (width : Nat) (clr2 : List (List Char))
    (n1 : ∀ x ∈ clr2, x ≠ [])
    (n2 : ∀ x ∈ clr2, wsChunk x ∨ wordChunk x)
    (n3 : sumLen clr2 ≤ width)
    (n4 : ∀ t y tl', clr2 = t :: y :: tl' → wsChunk t → ¬ wsChunk y) :
    dropTrailingWs clr2 ≠ [] →
      (dropTrailingWs clr2).reverse.flatten ≠ [] ∧
      (dropTrailingWs clr2).reverse.flatten.length ≤ width ∧
      (∀ ch, ((dropTrailingWs clr2).reverse.flatten).getLast? = some ch →
        isPyWs ch = false) ∧
      (∀ ch ∈ (dropTrailingWs clr2).reverse.flatten, ∃ x ∈ clr2, ch ∈ x) := by
  intro h3ne
  have hprov : ∀ sub : List (List Char), (∀ x ∈ sub, x ∈ clr2) →
      ∀ ch ∈ sub.reverse.flatten, ∃ x ∈ clr2, ch ∈ x := by
    intro sub hsub ch hch
    obtain ⟨x, hx1, hx2⟩ := List.mem_flatten.mp hch
    exact ⟨x, hsub x (List.mem_reverse.mp hx1), hx2⟩
  cases clr2 with
  | nil => exact absurd rfl h3ne
  | cons t tl =>
      unfold dropTrailingWs at h3ne ⊢
      dsimp only at h3ne ⊢
      by_cases hts : (pyStrip t).isEmpty = true
      · rw [if_pos hts] at h3ne ⊢
        cases tl with
        | nil => exact absurd rfl h3ne
        | cons y tl' =>
            have hwt : wsChunk t := (wsChunk_decide t).mp hts
            have hny : ¬ wsChunk y := n4 t y tl' rfl hwt
            have hyword : wordChunk y := by
              rcases n2 y (by simp) with h | h
              · exact absurd h hny
              · exact h
            have hyne : y ≠ [] := n1 y (by simp)
            have hlen : sumLen (y :: tl') ≤ width := by
              rw [sumLen_cons] at n3
              omega
            obtain ⟨f1, f2, f3⟩ := revFlatten_line_facts width y tl' hyne hyword hlen
            refine ⟨f1, f2, f3, ?_⟩
            apply hprov
            intro x hx
            exact List.mem_cons_of_mem t hx
      · rw [if_neg hts] at h3ne ⊢
        have hnt : ¬ wsChunk t := fun hwt => hts ((wsChunk_decide t).mpr hwt)
        have htword : wordChunk t := by
          rcases n2 t (by simp) with h | h
          · exact absurd h hnt
          · exact h
        have htne : t ≠ [] := n1 t (by simp)
        obtain ⟨f1, f2, f3⟩ := revFlatten_line_facts width t tl htne htword n3
        refine ⟨f1, f2, f3, ?_⟩
        apply hprov
        intro x hx
        exact hx

theorem sumLen_pos_of_ne_nil {clr : List (List Char)}
    (hne : clr ≠ []) (hel : ∀ x ∈ clr, x ≠ []) : 1 ≤ sumLen clr := by
  cases clr with
  | nil => exact absurd rfl hne
  | cons x xs =>
      rw [sumLen_cons]
      have : x.length ≠ 0 := fun h => hel x (by simp) (List.length_eq_zero.mp h)
      omega

theorem wrapStep_spec (width : Nat) (hw : 1 ≤ width) (hasLines : Bool)
    (chunks : List (List Char)) (hg : GoodChunks chunks) :
    GoodChunks (wrapStep width hasLines chunks).2 ∧
    (chunks ≠ [] → sumLen (wrapStep width hasLines chunks).2 < sumLen chunks) ∧
    (∀ x ∈ (wrapStep width hasLines chunks).2, ∀ ch ∈ x, ∃ x0 ∈ chunks, ch ∈ x0) ∧
    (∀ line, (wrapStep width hasLines chunks).1 = some line →
      line ≠ [] ∧ line.length ≤ width ∧
      (∀ ch, line.getLast? = some ch → isPyWs ch = true → line.length = width) ∧
      (∀ ch ∈ line, ∃ x0 ∈ chunks, ch ∈ x0)) ∧
    ((wrapStep width hasLines chunks).1 = none →
      (∃ x ∈ chunks, ¬ wsChunk x) →
      ∃ x' ∈ (wrapStep width hasLines chunks).2, ¬ wsChunk x') := by
  match chunks with
  | [] =>
      have h0 : wrapStep width hasLines [] = (none, []) := rfl
      rw [h0]
      refine ⟨⟨by simp, List.chain'_nil⟩, fun h => absurd rfl h, by simp, ?_, ?_⟩
      · intro line h
        exact absurd h (by simp)
      · rintro - ⟨x, hx, -⟩
        exact absurd hx (by simp)
  | c0 :: rest0 =>
      have hc0good := hg.1 c0 (by simp)
      have hC1 : dropLeadingWs hasLines (c0 :: rest0) = c0 :: rest0 ∨
          (dropLeadingWs hasLines (c0 :: rest0) = rest0 ∧ wsChunk c0) := by
        unfold dropLeadingWs
        dsimp only
        by_cases hx : ((pyStrip c0).isEmpty && hasLines) = true
        · refine Or.inr ⟨by rw [if_pos hx], (wsChunk_decide c0).mp ?_⟩
          simp only [Bool.and_eq_true] at hx
          exact hx.1
        · exact Or.inl (by rw [if_neg hx])
      have hsub1 : ∀ x ∈ dropLeadingWs hasLines (c0 :: rest0), x ∈ c0 :: rest0 := by
        rcases hC1 with h | ⟨h, -⟩
        · rw [h]; exact fun x hx => hx
        · rw [h]; exact fun x hx => List.mem_cons_of_mem c0 hx
      have hgood1 : GoodChunks (dropLeadingWs hasLines (c0 :: rest0)) := by
        rcases hC1 with h | ⟨h, -⟩
        · rw [h]; exact hg
        · rw [h]
          exact ⟨fun x hx => hg.1 x (List.mem_cons_of_mem c0 hx), hg.2.tail⟩
      have hS1 : sumLen (dropLeadingWs hasLines (c0 :: rest0)) ≤ sumLen (c0 :: rest0) ∧
          (dropLeadingWs hasLines (c0 :: rest0) = c0 :: rest0 ∨
            sumLen (dropLeadingWs hasLines (c0 :: rest0)) < sumLen (c0 :: rest0)) := by
        rcases hC1 with h | ⟨h, -⟩
        · rw [h]; exact ⟨Nat.le_refl _, Or.inl rfl⟩
        · rw [h, sumLen_cons]
          have : c0.length ≠ 0 := fun hh => hc0good.1 (List.length_eq_zero.mp hh)
          exact ⟨by omega, Or.inr (by omega)⟩
      have hkeepnonws : ∀ x ∈ c0 :: rest0, ¬ wsChunk x →
          x ∈ dropLeadingWs hasLines (c0 :: rest0) := by
        rcases hC1 with h | ⟨h, hws⟩
        · rw [h]; exact fun x hx _ => hx
        · rw [h]
          intro x hx hnx
          rcases List.mem_cons.mp hx with h2 | h2
          · exact absurd (h2 ▸ hws) hnx
          · exact h2
      obtain ⟨hif1, hif2, hif3, hif4⟩ :=
        innerFill_spec width (dropLeadingWs hasLines (c0 :: rest0)) 0 []
      rcases hri : innerFill width 0 [] (dropLeadingWs hasLines (c0 :: rest0)) with
        ⟨clr1, curLen1, chunks2⟩
      rw [hri] at hif1 hif2 hif3 hif4
      dsimp only at hif1 hif2 hif3 hif4
      simp only [List.reverse_nil, List.nil_append] at hif1
      simp only [sumLen_nil] at hif2
      have hcur : curLen1 = sumLen clr1 := by omega
      have hcurw : curLen1 ≤ width := hif3 (Nat.zero_le _)
      have hmem1 : ∀ x ∈ clr1, x ∈ c0 :: rest0 := by
        intro x hx
        refine hsub1 x ?_
        rw [← hif1]
        exact List.mem_append_left _ (List.mem_reverse.mpr hx)
      have hmem2 : ∀ x ∈ chunks2, x ∈ c0 :: rest0 := by
        intro x hx
        refine hsub1 x ?_
        rw [← hif1]
        exact List.mem_append_right _ hx
      have hsum12 : sumLen clr1 + sumLen chunks2 =
          sumLen (dropLeadingWs hasLines (c0 :: rest0)) := by
        rw [← hif1, sumLen_append, sumLen_reverse]
      have hchainC1 := hgood1.2
      rw [← hif1] at hchainC1
      obtain ⟨hchainRev, hchainCh2, hbound⟩ := List.chain'_append.mp hchainC1
      rw [List.getLast?_reverse] at hbound
      have hn4clr1 : ∀ t y tl', clr1 = t :: y :: tl' → wsChunk t → ¬ wsChunk y := by
        intro t y tl' he hwt hwsy
        rw [he, List.reverse_cons] at hchainRev
        obtain ⟨-, -, hb2⟩ := List.chain'_append.mp hchainRev
        exact hb2 y (by rw [List.getLast?_reverse]; rfl) t rfl hwsy hwt
      have hclr1good : ∀ x ∈ clr1, x ≠ [] ∧ (wsChunk x ∨ wordChunk x) :=
        fun x hx => hg.1 x (hmem1 x hx)
      have hclr1len : sumLen clr1 ≤ width := by omega
      have hsumc0 : 1 ≤ sumLen (c0 :: rest0) := by
        rw [sumLen_cons]
        have : c0.length ≠ 0 := fun h => hc0good.1 (List.length_eq_zero.mp h)
        omega
      have hgood2 : GoodChunks chunks2 := by
        exact ⟨fun x hx => hg.1 x (hmem2 x hx), hchainCh2⟩
      have hAorB : (longWordAdjust width curLen1 clr1 chunks2 = (clr1, chunks2) ∧
            (∀ cb restb, chunks2 = cb :: restb → ¬ width < cb.length)) ∨
          (∃ cb restb, chunks2 = cb :: restb ∧ width < cb.length ∧
            longWordAdjust width curLen1 clr1 chunks2 =
              (cb.take (breakLongEnd cb (width - curLen1)) :: clr1,
               cb.drop (breakLongEnd cb (width - curLen1)) :: restb)) := by
        cases chunks2 with
        | nil =>
            refine Or.inl ⟨rfl, ?_⟩
            intro cb restb h
            exact absurd h (by simp)
        | cons cb restb =>
            by_cases hlong : width < cb.length
            · refine Or.inr ⟨cb, restb, rfl, hlong, ?_⟩
              dsimp only [longWordAdjust]
              rw [if_pos hlong, if_neg (by omega : ¬ width < 1)]
            · refine Or.inl ⟨?_, ?_⟩
              · dsimp only [longWordAdjust]
                rw [if_neg hlong]
              · intro cb' restb' h
                injection h with h1 _
                subst h1
                exact hlong
      unfold wrapStep
      dsimp only
      rw [hri]
      dsimp only
      rcases hAorB with ⟨hlwa, hnofit⟩ | ⟨cb, restb, hch2, hlong, hlwa⟩
      · -- CASE A: no long-word handling; the pre-drop line is clr1.
        rw [hlwa]
        dsimp only
        have hdec : sumLen chunks2 < sumLen (c0 :: rest0) := by
          by_cases hclr1nil : clr1 = []
          · rcases hS1.2 with heq | hlt
            · -- nothing dropped and nothing popped: head cannot fit, contradiction
              exfalso
              subst hclr1nil
              simp only [List.reverse_nil, List.nil_append] at hif1
              rw [hif1, heq] at hif4
              have h4 := hif4 c0 rest0 rfl
              have : curLen1 = 0 := by
                rw [hcur]; rfl
              rw [hif1, heq] at hnofit
              exact hnofit c0 rest0 rfl (by
                have : c0.length ≤ width := by
                  by_contra hcon
                  exact hnofit c0 rest0 rfl (by omega)
                omega)
            · omega
          · have := sumLen_pos_of_ne_nil hclr1nil (fun x hx => (hclr1good x hx).1)
            omega
        refine ⟨?_, fun _ => ?_, ?_, ?_, ?_⟩
        · -- goodness of remaining chunks
          cases hd3 : dropTrailingWs clr1 with
          | nil => exact hgood2
          | cons a as => exact hgood2
        · -- decrease
          cases hd3 : dropTrailingWs clr1 with
          | nil => exact hdec
          | cons a as => exact hdec
        · -- provenance of remaining chunks
          cases hd3 : dropTrailingWs clr1 with
          | nil =>
              intro x hx ch hch
              exact ⟨x, hmem2 x hx, hch⟩
          | cons a as =>
              intro x hx ch hch
              exact ⟨x, hmem2 x hx, hch⟩
        · -- emitted line
          intro line hline
          cases hd3 : dropTrailingWs clr1 with
          | nil => rw [hd3] at hline; simp at hline
          | cons a as =>
              rw [hd3] at hline
              have hlineq : line = (dropTrailingWs clr1).reverse.flatten := by
                rw [hd3]
                exact (Option.some.inj hline).symm
              obtain ⟨f1, f2, f3, f4⟩ := dropTrailing_line_spec width clr1
                (fun x hx => (hclr1good x hx).1)
                (fun x hx => (hclr1good x hx).2)
                hclr1len hn4clr1 (by rw [hd3]; simp)
              subst hlineq
              refine ⟨f1, f2, ?_, ?_⟩
              · intro ch hch hwsch
                exact absurd hwsch (by rw [f3 ch hch]; simp)
              · intro ch hch
                obtain ⟨x, hx1, hx2⟩ := f4 ch hch
                exact ⟨x, hmem1 x hx1, hx2⟩
        · -- no line: only whitespace was consumed
          intro hnone hex
          cases hd3 : dropTrailingWs clr1 with
          | cons a as => rw [hd3] at hnone; simp at hnone
          | nil =>
              obtain ⟨x, hx, hnx⟩ := hex
              have hxC1 := hkeepnonws x hx hnx
              rw [← hif1] at hxC1
              rcases List.mem_append.mp hxC1 with h | h
              · -- x would be inside the dropped line, which is all whitespace
                exfalso
                have hxclr1 : x ∈ clr1 := List.mem_reverse.mp h
                cases hclr : clr1 with
                | nil => rw [hclr] at hxclr1; exact absurd hxclr1 (by simp)
                | cons t tl =>
                    rw [hclr] at hd3
                    unfold dropTrailingWs at hd3
                    dsimp only at hd3
                    by_cases hts : (pyStrip t).isEmpty = true
                    · rw [if_pos hts] at hd3
                      subst hd3
                      rw [hclr] at hxclr1
                      have hxt : x = t := by
                        rcases List.mem_cons.mp hxclr1 with h2 | h2
                        · exact h2
                        · exact absurd h2 (by simp)
                      exact hnx (hxt ▸ (wsChunk_decide t).mp hts)
                    · rw [if_neg hts] at hd3
                      exact List.noConfusion hd3
              · exact ⟨x, h, hnx⟩
      · -- CASE B: long-word handling with prefix length e.
        subst hch2
        have hcbgood := hg.1 cb (hmem2 cb (by simp))
        rw [hlwa]
        dsimp only
        have hele : breakLongEnd cb (width - curLen1) ≤ width - curLen1 :=
          breakLongEnd_le cb (width - curLen1)
        have hdropne : cb.drop (breakLongEnd cb (width - curLen1)) ≠ [] := by
          have h1 : breakLongEnd cb (width - curLen1) < cb.length := by omega
          intro hnil
          have h2 := List.length_drop (breakLongEnd cb (width - curLen1)) cb
          rw [hnil] at h2
          simp only [List.length_nil] at h2
          omega
        have hdropsub : ∀ ch ∈ cb.drop (breakLongEnd cb (width - curLen1)), ch ∈ cb :=
          fun ch hch => (List.drop_sublist _ _).subset hch
        have htakesub : ∀ ch ∈ cb.take (breakLongEnd cb (width - curLen1)), ch ∈ cb :=
          fun ch hch => (List.take_sublist _ _).subset hch
        have hgood3 : GoodChunks
            (cb.drop (breakLongEnd cb (width - curLen1)) :: restb) := by
          constructor
          · intro x hx
            rcases List.mem_cons.mp hx with h | h
            · subst h
              refine ⟨hdropne, ?_⟩
              rcases hcbgood.2 with hws | hwd
              · exact Or.inl (fun ch hch => hws ch (hdropsub ch hch))
              · exact Or.inr (fun ch hch => hwd ch (hdropsub ch hch))
            · exact hg.1 x (hmem2 x (List.mem_cons_of_mem cb h))
          · rw [List.chain'_cons'] at hchainCh2 ⊢
            refine ⟨?_, hchainCh2.2⟩
            intro y hy hwsdrop
            rcases hcbgood.2 with hws | hwd
            · exact hchainCh2.1 y hy hws
            · exact absurd hwsdrop (wordChunk_not_ws hdropne
                (fun ch hch => hwd ch (hdropsub ch hch)))
        have hprov3 : ∀ x ∈ cb.drop (breakLongEnd cb (width - curLen1)) :: restb,
            ∀ ch ∈ x, ∃ x0 ∈ c0 :: rest0, ch ∈ x0 := by
          intro x hx ch hch
          rcases List.mem_cons.mp hx with h | h
          · subst h
            exact ⟨cb, hmem2 cb (by simp), hdropsub ch hch⟩
          · exact ⟨x, hmem2 x (List.mem_cons_of_mem cb h), hch⟩
        have he0 : breakLongEnd cb (width - curLen1) = 0 → curLen1 = width := by
          intro h0
          by_cases hsl : 1 ≤ width - curLen1
          · have := breakLongEnd_pos cb (width - curLen1) hsl
            omega
          · omega
        have hdec : sumLen (cb.drop (breakLongEnd cb (width - curLen1)) :: restb) <
            sumLen (c0 :: rest0) := by
          have hstown : sumLen (cb.drop (breakLongEnd cb (width - curLen1)) :: restb) +
              breakLongEnd cb (width - curLen1) = sumLen (cb :: restb) := by
            rw [sumLen_cons, sumLen_cons, List.length_drop]
            omega
          by_cases he : 1 ≤ breakLongEnd cb (width - curLen1)
          · omega
          · have h0 : breakLongEnd cb (width - curLen1) = 0 := by omega
            have hcw := he0 h0
            omega
        refine ⟨?_, fun _ => ?_, ?_, ?_, ?_⟩
        · cases hd3 : dropTrailingWs
              (cb.take (breakLongEnd cb (width - curLen1)) :: clr1) with
          | nil => exact hgood3
          | cons a as => exact hgood3
        · cases hd3 : dropTrailingWs
              (cb.take (breakLongEnd cb (width - curLen1)) :: clr1) with
          | nil => exact hdec
          | cons a as => exact hdec
        · cases hd3 : dropTrailingWs
              (cb.take (breakLongEnd cb (width - curLen1)) :: clr1) with
          | nil => exact hprov3
          | cons a as => exact hprov3
        · -- emitted line
          intro line hline
          by_cases he : breakLongEnd cb (width - curLen1) = 0
          · -- exact fit: the line is clr1 and has length exactly width
            have hpiece : cb.take (breakLongEnd cb (width - curLen1)) = [] := by
              rw [he]
              rfl
            have hdt : dropTrailingWs
                (cb.take (breakLongEnd cb (width - curLen1)) :: clr1) = clr1 := by
              rw [hpiece]
              rfl
            have hclr1w : sumLen clr1 = width := by
              have := he0 he
              omega
            cases hclr : clr1 with
            | nil =>
                exfalso
                rw [hclr] at hclr1w
                rw [sumLen_nil] at hclr1w
                omega
            | cons t tl =>
                rw [hdt, hclr] at hline
                have hlineq : line = ((t :: tl).reverse).flatten :=
                  (Option.some.inj hline).symm
                subst hlineq
                have hlen : ((t :: tl).reverse).flatten.length = width := by
                  rw [flatten_reverse_length, ← hclr, hclr1w]
                refine ⟨?_, by omega, fun ch _ _ => by omega, ?_⟩
                · intro hnil
                  rw [hnil] at hlen
                  simp only [List.length_nil] at hlen
                  omega
                · intro ch hch
                  obtain ⟨x, hx1, hx2⟩ := List.mem_flatten.mp hch
                  have hx1' : x ∈ clr1 := by
                    rw [hclr]
                    exact List.mem_reverse.mp hx1
                  exact ⟨x, hmem1 x hx1', hx2⟩
          · -- e ≥ 1: the piece is a nonempty prefix of the long chunk
            have hepos : 1 ≤ breakLongEnd cb (width - curLen1) := by omega
            have hpiecene : cb.take (breakLongEnd cb (width - curLen1)) ≠ [] := by
              intro hnil
              have h2 := List.length_take (breakLongEnd cb (width - curLen1)) cb
              rw [hnil] at h2
              simp only [List.length_nil] at h2
              have : 1 ≤ cb.length := by omega
              omega
            have hn1B : ∀ x ∈ cb.take (breakLongEnd cb (width - curLen1)) :: clr1,
                x ≠ [] := by
              intro x hx
              rcases List.mem_cons.mp hx with h | h
              · subst h; exact hpiecene
              · exact (hclr1good x h).1
            have hn2B : ∀ x ∈ cb.take (breakLongEnd cb (width - curLen1)) :: clr1,
                wsChunk x ∨ wordChunk x := by
              intro x hx
              rcases List.mem_cons.mp hx with h | h
              · subst h
                rcases hcbgood.2 with hws | hwd
                · exact Or.inl (fun ch hch => hws ch (htakesub ch hch))
                · exact Or.inr (fun ch hch => hwd ch (htakesub ch hch))
              · exact (hclr1good x h).2
            have hn3B : sumLen (cb.take (breakLongEnd cb (width - curLen1)) :: clr1) ≤
                width := by
              rw [sumLen_cons, List.length_take]
              have : min (breakLongEnd cb (width - curLen1)) cb.length ≤
                  breakLongEnd cb (width - curLen1) := Nat.min_le_left _ _
              omega
            have hn4B : ∀ t y tl',
                cb.take (breakLongEnd cb (width - curLen1)) :: clr1 = t :: y :: tl' →
                wsChunk t → ¬ wsChunk y := by
              intro t y tl' heq hwt hwsy
              have ht : t = cb.take (breakLongEnd cb (width - curLen1)) :=
                (List.cons_eq_cons.mp heq).1.symm
              have htl : clr1 = y :: tl' := (List.cons_eq_cons.mp heq).2
              have hcbws : wsChunk cb := by
                rcases hcbgood.2 with hws | hwd
                · exact hws
                · exact absurd hwt (wordChunk_not_ws (ht ▸ hpiecene)
                    (by rw [ht]; exact fun ch hch => hwd ch (htakesub ch hch)))
              exact hbound y (by rw [htl]; exact rfl) cb rfl hwsy hcbws
            cases hd3 : dropTrailingWs
                (cb.take (breakLongEnd cb (width - curLen1)) :: clr1) with
            | nil => rw [hd3] at hline; simp at hline
            | cons a as =>
                rw [hd3] at hline
                have hlineq : line = (dropTrailingWs
                    (cb.take (breakLongEnd cb (width - curLen1)) :: clr1)).reverse.flatten := by
                  rw [hd3]
                  exact (Option.some.inj hline).symm
                obtain ⟨f1, f2, f3, f4⟩ := dropTrailing_line_spec width
                  (cb.take (breakLongEnd cb (width - curLen1)) :: clr1)
                  hn1B hn2B hn3B hn4B (by rw [hd3]; simp)
                subst hlineq
                refine ⟨f1, f2, ?_, ?_⟩
                · intro ch hch hwsch
                  exact absurd hwsch (by rw [f3 ch hch]; simp)
                · intro ch hch
                  obtain ⟨x, hx1, hx2⟩ := f4 ch hch
                  rcases List.mem_cons.mp hx1 with h | h
                  · exact ⟨cb, hmem2 cb (by simp), htakesub ch (h ▸ hx2)⟩
                  · exact ⟨x, hmem1 x h, hx2⟩
        · -- no line emitted in the long-word case
          intro hnone hex
          by_cases he : breakLongEnd cb (width - curLen1) = 0
          · -- impossible: the line would have length width ≥ 1
            exfalso
            have hclr1w : sumLen clr1 = width := by
              have := he0 he
              omega
            have hclr1ne : clr1 ≠ [] := by
              intro hnil
              rw [hnil, sumLen_nil] at hclr1w
              omega
            have hpiece : cb.take (breakLongEnd cb (width - curLen1)) = [] := by
              rw [he]; rfl
            have hdt : dropTrailingWs
                (cb.take (breakLongEnd cb (width - curLen1)) :: clr1) = clr1 := by
              rw [hpiece]; rfl
            rw [hdt] at hnone
            cases hclr : clr1 with
            | nil => exact hclr1ne hclr
            | cons t tl =>
                rw [hclr] at hnone
                exact Option.noConfusion hnone
          · -- e ≥ 1: the piece was dropped as whitespace and nothing was popped
            have hepos : 1 ≤ breakLongEnd cb (width - curLen1) := by omega
            have hpiecene : cb.take (breakLongEnd cb (width - curLen1)) ≠ [] := by
              intro hnil
              have h2 := List.length_take (breakLongEnd cb (width - curLen1)) cb
              rw [hnil] at h2
              simp only [List.length_nil] at h2
              omega
            cases hd3 : dropTrailingWs
                (cb.take (breakLongEnd cb (width - curLen1)) :: clr1) with
            | cons a as => exact absurd hnone (by rw [hd3]; simp)
            | nil =>
                unfold dropTrailingWs at hd3
                dsimp only at hd3
                by_cases hts :
                    (pyStrip (cb.take (breakLongEnd cb (width - curLen1)))).isEmpty = true
                · rw [if_pos hts] at hd3
                  subst hd3
                  -- the piece is nonempty whitespace, so cb is a whitespace chunk
                  have hpws : wsChunk (cb.take (breakLongEnd cb (width - curLen1))) :=
                    (wsChunk_decide _).mp hts
                  have hcbws : wsChunk cb := by
                    rcases hcbgood.2 with hws | hwd
                    · exact hws
                    · exact absurd hpws (wordChunk_not_ws hpiecene
                        (fun ch hch => hwd ch (htakesub ch hch)))
                  obtain ⟨x, hx, hnx⟩ := hex
                  have hxC1 := hkeepnonws x hx hnx
                  rw [← hif1] at hxC1
                  rcases List.mem_append.mp hxC1 with h | h
                  · exact absurd (List.mem_reverse.mp h) (by simp)
                  · rcases List.mem_cons.mp h with h2 | h2
                    · exact absurd (h2 ▸ hcbws) hnx
                    · exact ⟨x, List.mem_cons_of_mem _ h2, hnx⟩
                · rw [if_neg hts] at hd3
                  exact List.noConfusion hd3


theorem wrapLoopF_nil (width fuel : Nat) (hasLines : Bool) :
    wrapLoopF width fuel hasLines [] = [] := by
  cases fuel <;> rfl

theorem wrapLoopF_succ (width n : Nat) (hasLines : Bool) (c0 : List Char)
    (rest0 : List (List Char)) :
    wrapLoopF width (n + 1) hasLines (c0 :: rest0) =
      match wrapStep width hasLines (c0 :: rest0) with
      | (some line, chunks2) => line :: wrapLoopF width n true chunks2
      | (none, chunks2) => wrapLoopF width n hasLines chunks2 := rfl

theorem wrapLoopF_lines (width : Nat) (hw : 1 ≤ width) :
    ∀ (fuel : Nat) (hasLines : Bool) (chunks : List (List Char)),
      GoodChunks chunks →
      ∀ line ∈ wrapLoopF width fuel hasLines chunks,
        line ≠ [] ∧ line.length ≤ width ∧
        (∀ ch, line.getLast? = some ch → isPyWs ch = true → line.length = width) ∧
        (∀ ch ∈ line, ∃ x0 ∈ chunks, ch ∈ x0) := by
  intro fuel
  induction fuel with
  | zero =>
      intro hasLines chunks _ line hline
      rw [wrapLoopF] at hline
      exact absurd hline (List.not_mem_nil line)
  | succ n ih =>
      intro hasLines chunks hg line hline
      match chunks with
      | [] =>
          rw [wrapLoopF_nil] at hline
          exact absurd hline (List.not_mem_nil line)
      | c0 :: rest0 =>
          obtain ⟨hsG, hsDec, hsProv, hsLine, hsNone⟩ :=
            wrapStep_spec width hw hasLines (c0 :: rest0) hg
          rw [wrapLoopF_succ] at hline
          rcases hws : wrapStep width hasLines (c0 :: rest0) with ⟨lineOpt, chunks2⟩
          rw [hws] at hline hsG hsDec hsProv hsLine hsNone
          dsimp only at hline hsG hsDec hsProv hsLine hsNone
          cases lineOpt with
          | some l0 =>
              dsimp only at hline
              rcases List.mem_cons.mp hline with h | h
              · subst h
                obtain ⟨f1, f2, f3, f4⟩ := hsLine line rfl
                exact ⟨f1, f2, f3, f4⟩
              · obtain ⟨f1, f2, f3, f4⟩ := ih true chunks2 hsG line h
                refine ⟨f1, f2, f3, ?_⟩
                intro ch hch
                obtain ⟨x0, hx0, hchx⟩ := f4 ch hch
                exact hsProv x0 hx0 ch hchx
          | none =>
              dsimp only at hline
              obtain ⟨f1, f2, f3, f4⟩ := ih hasLines chunks2 hsG line hline
              refine ⟨f1, f2, f3, ?_⟩
              intro ch hch
              obtain ⟨x0, hx0, hchx⟩ := f4 ch hch
              exact hsProv x0 hx0 ch hchx

theorem wrapLoopF_emits (width : Nat) (hw : 1 ≤ width) :
    ∀ (fuel : Nat) (chunks : List (List Char)) (hasLines : Bool),
      GoodChunks chunks → (∃ x ∈ chunks, ¬ wsChunk x) → sumLen chunks < fuel →
      wrapLoopF width fuel hasLines chunks ≠ [] := by
  intro fuel
  induction fuel with
  | zero =>
      intro chunks hasLines _ _ hf
      exact absurd hf (Nat.not_lt_zero _)
  | succ n ih =>
      intro chunks hasLines hg hex hf
      match chunks with
      | [] =>
          obtain ⟨x, hx, -⟩ := hex
          exact absurd hx (List.not_mem_nil x)
      | c0 :: rest0 =>
          obtain ⟨hsG, hsDec, hsProv, hsLine, hsNone⟩ :=
            wrapStep_spec width hw hasLines (c0 :: rest0) hg
          rw [wrapLoopF_succ]
          rcases hws : wrapStep width hasLines (c0 :: rest0) with ⟨lineOpt, chunks2⟩
          rw [hws] at hsG hsDec hsProv hsLine hsNone
          dsimp only at hsG hsDec hsProv hsLine hsNone
          cases lineOpt with
          | some l0 => exact List.cons_ne_nil _ _
          | none =>
              dsimp only
              refine ih chunks2 hasLines hsG (hsNone rfl hex) ?_
              have := hsDec (List.cons_ne_nil c0 rest0)
              omega

theorem twWrap_lines (text : List Char) (w : Nat) (hw : 1 ≤ w) :
    ∀ line ∈ twWrap text w,
      line ≠ [] ∧ line.length ≤ w ∧
      (∀ ch, line.getLast? = some ch → isPyWs ch = true → line.length = w) ∧
      (∀ ch ∈ line, ch ∈ mungeWhitespace text) := by
  intro line hline
  obtain ⟨hflat, hgood⟩ := wordsepSplit_spec (mungeWhitespace text)
  obtain ⟨f1, f2, f3, f4⟩ := wrapLoopF_lines w hw _ false _ hgood line hline
  refine ⟨f1, f2, f3, ?_⟩
  intro ch hch
  obtain ⟨x0, hx0, hchx⟩ := f4 ch hch
  rw [← hflat]
  exact List.mem_flatten.mpr ⟨x0, hx0, hchx⟩

theorem twWrap_ne_nil (text : List Char) (w : Nat) (hw : 1 ≤ w)
    (hch : ∃ ch ∈ mungeWhitespace text, isPyWs ch = false) :
    twWrap text w ≠ [] := by
  obtain ⟨hflat, hgood⟩ := wordsepSplit_spec (mungeWhitespace text)
  obtain ⟨ch, hchm, hchw⟩ := hch
  rw [← hflat] at hchm
  obtain ⟨x0, hx0, hchx⟩ := List.mem_flatten.mp hchm
  refine wrapLoopF_emits w hw _ _ false hgood ⟨x0, hx0, ?_⟩ (Nat.lt_succ_self _)
  intro hws
  rw [hws ch hchx] at hchw
  exact Bool.noConfusion hchw

/-- C4 counterexample: wrapping "ab cdefg" at width 3 emits the line "ab "
(with a trailing space), refuting the claim that no emitted line has
trailing whitespace. The trailing space arrives because the oversize word
"cdefg" is broken with zero characters on the current line, so the line
"ab " is flushed without the usual trailing-whitespace drop. -/
theorem c4_counterexample_trailing_space :
    twWrap ("ab cdefg".toList) 3 = ["ab ".toList, "cde".toList, "fg".toList] ∧
    "ab ".toList ∈ twWrap ("ab cdefg".toList) 3 ∧
    ("ab ".toList).getLast? = some ' ' ∧ isPyWs ' ' = true := by
  decide

/-- C4 (amended): for every text and width w ≥ 1, every line emitted by
the wrap step has length at most w — with the default
break_long_words=True there is no overlong-word exception — and a line
ends in a whitespace character only when its length is exactly w. -/
theorem c4_lines_bounded_trailing_ws_only_when_full (text : List Char) (w : Nat)
    (hw : 1 ≤ w) :
    ∀ line ∈ twWrap text w,
      line.length ≤ w ∧
      (∀ ch, line.getLast? = some ch → isPyWs ch = true → line.length = w) := by
  intro line hline
  obtain ⟨-, f2, f3, -⟩ := twWrap_lines text w hw line hline
  exact ⟨f2, f3⟩

theorem c4_lines_bounded_trailing_ws_only_when_full_witness :
    1 ≤ 3 ∧
    ("ab ".toList.length ≤ 3 ∧
     (∀ ch, ("ab ".toList).getLast? = some ch → isPyWs ch = true →
       "ab ".toList.length = 3)) :=
  ⟨by decide,
   c4_lines_bounded_trailing_ws_only_when_full ("ab cdefg".toList) 3 (by decide)
     ("ab ".toList) (by decide)⟩

/-!
## Claim C10: the output has no leading or trailing newline
-/

theorem consHead_flatten (c : Char) (ps : List (List Char)) :
    (consHead c ps).flatten = c :: ps.flatten := by
  cases ps with
  | nil => rfl
  | cons w ws => rfl

theorem splitSentAux_true_cons (prev c0 : Char) (rest : List Char) :
    splitSentAux true prev (c0 :: rest) =
      if c0 = ' ' then splitSentAux true ' ' rest
      else consHead c0 (splitSentAux false c0 rest) := rfl

theorem splitSentAux_false_cons (prev c0 : Char) (rest : List Char) :
    splitSentAux false prev (c0 :: rest) =
      if c0 = ' ' && isTerminal prev then [] :: splitSentAux true ' ' rest
      else consHead c0 (splitSentAux false c0 rest) := rfl

theorem splitSentAux_flatten_mem :
    ∀ (text : List Char) (skip : Bool) (prev c : Char),
      c ∈ text → c ≠ ' ' → c ∈ (splitSentAux skip prev text).flatten := by
  intro text
  induction text with
  | nil => intro skip prev c hc _; exact absurd hc (List.not_mem_nil c)
  | cons c0 rest ih =>
      intro skip prev c hc hcsp
      have hmem : c = c0 ∨ c ∈ rest := List.mem_cons.mp hc
      have hrest : c = c0 ∨ (c ∈ rest) := hmem
      cases skip with
      | true =>
          rw [splitSentAux_true_cons]
          by_cases h0 : c0 = ' '
          · rw [if_pos h0]
            rcases hmem with h | h
            · exact absurd (h.trans h0) hcsp
            · exact ih true ' ' c h hcsp
          · rw [if_neg h0, consHead_flatten]
            rcases hmem with h | h
            · exact h ▸ List.mem_cons_self _ _
            · exact List.mem_cons_of_mem _ (ih false c0 c h hcsp)
      | false =>
          rw [splitSentAux_false_cons]
          by_cases hb : (c0 = ' ' && isTerminal prev) = true
          · rw [if_pos hb]
            have h0 : c0 = ' ' := by
              rcases Bool.and_eq_true_iff.mp hb with ⟨h1, -⟩
              exact of_decide_eq_true h1
            rcases hmem with h | h
            · exact absurd (h.trans h0) hcsp
            · simp only [List.flatten_cons, List.nil_append]
              exact ih true ' ' c h hcsp
          · rw [if_neg hb, consHead_flatten]
            rcases hmem with h | h
            · exact h ▸ List.mem_cons_self _ _
            · exact List.mem_cons_of_mem _ (ih false c0 c h hcsp)

theorem pyStrip_ne_nil_of_mem {l : List Char} {c : Char} (hc : c ∈ l)
    (hw : isPyWs c = false) : pyStrip l ≠ [] := by
  intro hnil
  unfold pyStrip at hnil
  rw [List.reverse_eq_nil_iff, List.dropWhile_eq_nil_iff] at hnil
  have hsplit : l.takeWhile isPyWs ++ l.dropWhile isPyWs = l :=
    List.takeWhile_append_dropWhile isPyWs l
  have hcases : c ∈ l.takeWhile isPyWs ∨ c ∈ l.dropWhile isPyWs := by
    rw [← hsplit] at hc
    exact List.mem_append.mp hc
  rcases hcases with h | h
  · have := List.mem_takeWhile_imp h
    rw [hw] at this
    exact Bool.noConfusion this
  · have := hnil c (List.mem_reverse.mpr h)
    rw [hw] at this
    exact Bool.noConfusion this

theorem pyStrip_has_nonws {l : List Char} (h : pyStrip l ≠ []) :
    ∃ c ∈ pyStrip l, isPyWs c = false := by
  have he : (l.dropWhile isPyWs).reverse.dropWhile isPyWs ≠ [] := by
    intro h0
    apply h
    unfold pyStrip
    rw [h0]
    rfl
  have hl0 : 0 < ((l.dropWhile isPyWs).reverse.dropWhile isPyWs).length :=
    List.length_pos.mpr he
  have hhead := List.dropWhile_get_zero_not isPyWs (l.dropWhile isPyWs).reverse hl0
  refine ⟨((l.dropWhile isPyWs).reverse.dropWhile isPyWs).get ⟨0, hl0⟩, ?_, ?_⟩
  · unfold pyStrip
    exact List.mem_reverse.mpr (List.get_mem _ _ hl0)
  · exact Bool.eq_false_iff.mpr hhead

theorem split_into_sentences_mem_nonws {t s : List Char}
    (hs : s ∈ split_into_sentences t) : s ≠ [] ∧ ∃ c ∈ s, isPyWs c = false := by
  unfold split_into_sentences at hs
  have h1 := List.of_mem_filter hs
  have h2 := List.mem_of_mem_filter hs
  have hne : s ≠ [] := by simpa [List.isEmpty_iff] using h1
  refine ⟨hne, ?_⟩
  obtain ⟨piece, -, hsp⟩ := List.mem_map.mp h2
  rw [← hsp]
  exact pyStrip_has_nonws (hsp ▸ hne)

theorem split_into_sentences_ne_nil {t : List Char}
    (h : ∃ c ∈ t, isPyWs c = false) : split_into_sentences t ≠ [] := by
  obtain ⟨c, hct, hcw⟩ := h
  have hcsp : c ≠ ' ' := by
    intro h0
    rw [h0] at hcw
    exact absurd hcw (by decide)
  have hflat := splitSentAux_flatten_mem t false ' ' c hct hcsp
  obtain ⟨piece, hpiece, hcp⟩ := List.mem_flatten.mp hflat
  intro hnil
  have hmm : pyStrip piece ∈ (splitSentAux false ' ' t).map pyStrip :=
    List.mem_map_of_mem pyStrip hpiece
  have hne : pyStrip piece ≠ [] := pyStrip_ne_nil_of_mem hcp hcw
  have hin : pyStrip piece ∈ split_into_sentences t := by
    unfold split_into_sentences
    refine List.mem_filter.mpr ⟨hmm, ?_⟩
    simpa [List.isEmpty_iff] using hne
  rw [hnil] at hin
  exact absurd hin (List.not_mem_nil _)

theorem joinSep_mem (sep : List Char) :
    ∀ (xs : List (List Char)) (x : List Char), x ∈ xs → ∀ c ∈ x, c ∈ joinSep sep xs := by
  intro xs
  induction xs with
  | nil => intro x hx; exact absurd hx (List.not_mem_nil x)
  | cons y ys ih =>
      intro x hx c hc
      cases ys with
      | nil =>
          have hxy : x = y := by
            rcases List.mem_cons.mp hx with h | h
            · exact h
            · exact absurd h (List.not_mem_nil x)
          exact hxy ▸ hc
      | cons z zs =>
          show c ∈ y ++ sep ++ joinSep sep (z :: zs)
          rcases List.mem_cons.mp hx with h | h
          · exact List.mem_append.mpr (Or.inl (List.mem_append.mpr (Or.inl (h ▸ hc))))
          · exact List.mem_append.mpr (Or.inr (ih x h c hc))

theorem splitOnP_flatten :
    ∀ l : List Char, (l.splitOnP isPyWs).flatten = l.filter (fun c => !isPyWs c) := by
  intro l
  induction l with
  | nil => rfl
  | cons a as ih =>
      rw [List.splitOnP_cons]
      by_cases hp : isPyWs a
      · rw [if_pos hp, List.flatten_cons, List.nil_append, ih]
        simp [List.filter_cons, hp]
      · rw [if_neg hp]
        cases hs : as.splitOnP isPyWs with
        | nil => exact absurd hs (List.splitOnP_ne_nil isPyWs as)
        | cons b bs =>
            show ((a :: b) :: bs).flatten = (a :: as).filter (fun c => !isPyWs c)
            rw [List.flatten_cons, List.cons_append, ← List.flatten_cons, ← hs, ih]
            simp [List.filter_cons, hp]

theorem pySplitWs_exists_of_nonws {s : List Char} {c : Char} (hc : c ∈ s)
    (hw : isPyWs c = false) : ∃ w ∈ pySplitWs s, c ∈ w := by
  have hmem : c ∈ (s.splitOnP isPyWs).flatten := by
    rw [splitOnP_flatten]
    refine List.mem_filter.mpr ⟨hc, ?_⟩
    rw [hw]
    rfl
  obtain ⟨piece, hpiece, hcp⟩ := List.mem_flatten.mp hmem
  refine ⟨piece, ?_, hcp⟩
  unfold pySplitWs
  refine List.mem_filter.mpr ⟨hpiece, ?_⟩
  simpa [List.isEmpty_iff] using List.ne_nil_of_mem hcp

theorem normalizeWs_nonws_mem {content : List Char} {c : Char} (hc : c ∈ content)
    (hw : isPyWs c = false) : c ∈ normalizeWs content := by
  obtain ⟨w, hwmem, hcw⟩ := pySplitWs_exists_of_nonws hc hw
  exact joinSep_mem [' '] _ w hwmem c hcw

theorem expandTabsAux_cons (col : Nat) (a : Char) (as : List Char) :
    expandTabsAux col (a :: as) =
      if a = '\t' then
        List.replicate (8 - col % 8) ' ' ++ expandTabsAux (col + (8 - col % 8)) as
      else if a = '\n' || a = '\r' then a :: expandTabsAux 0 as
      else a :: expandTabsAux (col + 1) as := rfl

theorem expandTabsAux_mem {c : Char} (hc : c ≠ '\t') :
    ∀ (l : List Char) (col : Nat), c ∈ l → c ∈ expandTabsAux col l := by
  intro l
  induction l with
  | nil => intro col h; exact absurd h (List.not_mem_nil c)
  | cons a as ih =>
      intro col h
      rw [expandTabsAux_cons]
      by_cases ht : a = '\t'
      · rw [if_pos ht]
        have hmem : c ∈ as := by
          rcases List.mem_cons.mp h with h0 | h0
          · exact absurd (h0.trans ht) hc
          · exact h0
        exact List.mem_append.mpr (Or.inr (ih _ hmem))
      · rw [if_neg ht]
        by_cases hnl : (a = '\n' || a = '\r') = true
        · rw [if_pos hnl]
          rcases List.mem_cons.mp h with h0 | h0
          · exact h0 ▸ List.mem_cons_self _ _
          · exact List.mem_cons_of_mem _ (ih _ h0)
        · rw [if_neg hnl]
          rcases List.mem_cons.mp h with h0 | h0
          · exact h0 ▸ List.mem_cons_self _ _
          · exact List.mem_cons_of_mem _ (ih _ h0)

theorem mungeWhitespace_nonws_mem {s : List Char} {c : Char} (hc : c ∈ s)
    (hw : isPyWs c = false) : c ∈ mungeWhitespace s := by
  have hnt : c ≠ '\t' := by
    intro h0
    rw [h0] at hw
    exact absurd hw (by decide)
  have h1 : c ∈ expandTabsAux 0 s := expandTabsAux_mem hnt s 0 hc
  unfold mungeWhitespace
  have h2 : (if isPyWs c then ' ' else c) = c := by
    rw [hw]
    rfl
  exact h2 ▸ List.mem_map_of_mem _ h1

theorem mungeWhitespace_no_newline (s : List Char) :
    ∀ c ∈ mungeWhitespace s, c ≠ '\n' := by
  intro c hc h0
  unfold mungeWhitespace at hc
  obtain ⟨d, -, hd⟩ := List.mem_map.mp hc
  subst h0
  by_cases hws : isPyWs d
  · rw [if_pos hws] at hd
    exact absurd hd (by decide)
  · rw [if_neg hws] at hd
    rw [hd] at hws
    exact hws (by decide)

theorem joinSep_head?_first (sep x : List Char) (xs : List (List Char)) (hx : x ≠ []) :
    (joinSep sep (x :: xs)).head? = x.head? := by
  cases xs with
  | nil => rfl
  | cons y ys =>
      show ((x ++ sep) ++ joinSep sep (y :: ys)).head? = x.head?
      rw [List.head?_append_of_ne_nil _ (by simp [hx]),
        List.head?_append_of_ne_nil _ hx]

theorem joinSep_getLast?_mem (sep : List Char) :
    ∀ (xs : List (List Char)), xs ≠ [] → (∀ y ∈ xs, y ≠ []) →
      ∃ y ∈ xs, (joinSep sep xs).getLast? = y.getLast? := by
  intro xs
  induction xs with
  | nil => intro h _; exact absurd rfl h
  | cons x rest ih =>
      intro _ hall
      cases rest with
      | nil => exact ⟨x, List.mem_cons_self _ _, rfl⟩
      | cons z zs =>
          obtain ⟨y, hy, hyl⟩ := ih (List.cons_ne_nil z zs)
            (fun y hy => hall y (List.mem_cons_of_mem x hy))
          refine ⟨y, List.mem_cons_of_mem x hy, ?_⟩
          have hJ : joinSep sep (z :: zs) ≠ [] :=
            joinSep_cons_ne_nil sep z zs (hall z (List.mem_cons_of_mem x (List.mem_cons_self _ _)))
          show ((x ++ sep) ++ joinSep sep (z :: zs)).getLast? = y.getLast?
          rw [List.getLast?_append_of_ne_nil _ hJ, hyl]

theorem head?_some_mem {l : List Char} {c : Char} (h : l.head? = some c) : c ∈ l := by
  cases l with
  | nil => exact absurd h (by simp)
  | cons a as =>
      rw [List.head?_cons] at h
      cases Option.some.inj h
      exact List.mem_cons_self _ _

theorem getLast?_some_mem {l : List Char} {c : Char} (h : l.getLast? = some c) : c ∈ l := by
  obtain ⟨hne, heq⟩ := List.mem_getLast?_eq_getLast (Option.mem_def.mpr h)
  rw [heq]
  exact List.getLast_mem hne

theorem twFill_boundary (p : List Char) (w : Nat) (hw : 1 ≤ w)
    (hch : ∃ c ∈ p, isPyWs c = false) :
    twFill p w ≠ [] ∧ (twFill p w).head? ≠ some '\n' ∧
      (twFill p w).getLast? ≠ some '\n' := by
  have hmch : ∃ c ∈ mungeWhitespace p, isPyWs c = false := by
    obtain ⟨c, hc, hcw⟩ := hch
    exact ⟨c, mungeWhitespace_nonws_mem hc hcw, hcw⟩
  have hnl := twWrap_ne_nil p w hw hmch
  have hlines := twWrap_lines p w hw
  cases hL : twWrap p w with
  | nil => exact absurd hL hnl
  | cons l0 ls =>
      have hl0 := hlines l0 (by rw [hL]; exact List.mem_cons_self _ _)
      unfold twFill
      rw [hL]
      refine ⟨joinSep_cons_ne_nil _ _ _ hl0.1, ?_, ?_⟩
      · rw [joinSep_head?_first _ _ _ hl0.1]
        intro hhd
        exact mungeWhitespace_no_newline p _ (hl0.2.2.2 _ (head?_some_mem hhd)) rfl
      · obtain ⟨y, hy, hyl⟩ := joinSep_getLast?_mem ['\n'] (l0 :: ls)
          (List.cons_ne_nil _ _) (fun y hy => (hlines y (by rw [hL]; exact hy)).1)
        rw [hyl]
        intro hlast
        have hym := (hlines y (by rw [hL]; exact hy)).2.2.2 _ (getLast?_some_mem hlast)
        exact mungeWhitespace_no_newline p _ hym rfl

theorem joinSep_blank_boundary (parts : List (List Char)) (hne : parts ≠ [])
    (hall : ∀ q ∈ parts, q ≠ [] ∧ q.head? ≠ some '\n' ∧ q.getLast? ≠ some '\n') :
    joinSep ['\n', '\n'] parts ≠ [] ∧
    (joinSep ['\n', '\n'] parts).head? ≠ some '\n' ∧
    (joinSep ['\n', '\n'] parts).getLast? ≠ some '\n' := by
  cases parts with
  | nil => exact absurd rfl hne
  | cons q0 qs =>
      have hq0 := hall q0 (List.mem_cons_self _ _)
      refine ⟨joinSep_cons_ne_nil _ _ _ hq0.1, ?_, ?_⟩
      · rw [joinSep_head?_first _ _ _ hq0.1]
        exact hq0.2.1
      · obtain ⟨y, hy, hyl⟩ := joinSep_getLast?_mem ['\n', '\n'] (q0 :: qs)
          (List.cons_ne_nil _ _) (fun y hy => (hall y hy).1)
        rw [hyl]
        exact (hall y hy).2.2

/-- C10: for every input containing at least one non-whitespace character
and every width ≥ 1 and group size ≥ 1, the reformat pipeline returns a
nonempty string that neither begins nor ends with a newline character. -/
theorem c10_output_no_boundary_newline (content : List Char) (w k : Nat)
    (hw : 1 ≤ w) (hk : 1 ≤ k) (hch : ∃ c ∈ content, isPyWs c = false) :
    reformatPure content w k ≠ [] ∧
    (reformatPure content w k).head? ≠ some '\n' ∧
    (reformatPure content w k).getLast? ≠ some '\n' := by
  obtain ⟨c, hc, hcw⟩ := hch
  have hsent : split_into_sentences (normalizeWs content) ≠ [] :=
    split_into_sentences_ne_nil ⟨c, normalizeWs_nonws_mem hc hcw, hcw⟩
  have hpar : ∀ p ∈ group_sentences_into_paragraphs
      (split_into_sentences (normalizeWs content)) k, ∃ c' ∈ p, isPyWs c' = false := by
    intro p hp
    unfold group_sentences_into_paragraphs at hp
    obtain ⟨chunk, hchunk, hpj⟩ := List.mem_map.mp hp
    have hlen := chunkRangeF_mem_len _ k _ hk (Nat.lt_succ_self _) chunk hchunk
    cases hcs : chunk with
    | nil =>
        rw [hcs] at hlen
        simp at hlen
    | cons s0 srest =>
        have hs0S : s0 ∈ split_into_sentences (normalizeWs content) := by
          have hflat := chunkRangeF_flatten
            ((split_into_sentences (normalizeWs content)).length + 1) k
            (split_into_sentences (normalizeWs content)) hk (Nat.lt_succ_self _)
          rw [← hflat]
          exact List.mem_flatten.mpr
            ⟨chunk, hchunk, by rw [hcs]; exact List.mem_cons_self _ _⟩
        obtain ⟨-, c', hc's, hc'w⟩ := split_into_sentences_mem_nonws hs0S
        refine ⟨c', ?_, hc'w⟩
        rw [← hpj, hcs]
        exact joinSep_mem [' '] _ s0 (List.mem_cons_self _ _) c' hc's
  have hparts : ∀ q ∈ (group_sentences_into_paragraphs
      (split_into_sentences (normalizeWs content)) k).map (fun p => twFill p w),
      q ≠ [] ∧ q.head? ≠ some '\n' ∧ q.getLast? ≠ some '\n' := by
    intro q hq
    obtain ⟨p, hp, hqp⟩ := List.mem_map.mp hq
    rw [← hqp]
    exact twFill_boundary p w hw (hpar p hp)
  have hPne : (group_sentences_into_paragraphs
      (split_into_sentences (normalizeWs content)) k).map (fun p => twFill p w) ≠ [] := by
    have hGne : group_sentences_into_paragraphs
        (split_into_sentences (normalizeWs content)) k ≠ [] := by
      unfold group_sentences_into_paragraphs
      have hcne := chunkRangeF_ne_nil
        (split_into_sentences (normalizeWs content)).length k
        (split_into_sentences (normalizeWs content)) hsent
      intro h0
      exact hcne (List.map_eq_nil_iff.mp h0)
    intro h0
    exact hGne (List.map_eq_nil_iff.mp h0)
  exact joinSep_blank_boundary _ hPne hparts

theorem c10_output_no_boundary_newline_witness :
    1 ≤ 5 ∧ 1 ≤ 1 ∧ (∃ c ∈ "Hi there. Wow.".toList, isPyWs c = false) ∧
    (reformatPure "Hi there. Wow.".toList 5 1 ≠ [] ∧
     (reformatPure "Hi there. Wow.".toList 5 1).head? ≠ some '\n' ∧
     (reformatPure "Hi there. Wow.".toList 5 1).getLast? ≠ some '\n') :=
  ⟨by decide, by decide, by decide,
   c10_output_no_boundary_newline ("Hi there. Wow.".toList) 5 1 (by decide) (by decide)
     (by decide)⟩
